import Mathlib

/-! # TApplicationServer: admission gate, worker registry and listener life cycle

A shallow embedding of `src/tapplicationserver.cpp`.

* A worker (`TActionThread *` / `TActionForkProcess *`) is represented by its pointer
  identity, a natural number.  The pointer returned by `new` is supplied by the caller of
  the embedded function.
* `actionContexts` (a `QSet<TActionContext *>`) is a list of identities; `QSet::insert`
  does nothing when the element is present and `QSet::remove` removes the element.
* `int` values (`maxServers`, `actionContextCount()`, descriptors) are unbounded integers.
* Calls into Qt and into the operating system are recorded, in program order, in a log.
* `qApp->processEvents()` is given the list of workers whose `finished()` signal is
  delivered by that call; each delivery runs the slot `deleteActionContext()`.
* Loops that wait for the environment (`for (;;)`) consume one such list per iteration and
  yield `none` when the supplied lists run out before the loop exits.
-/

namespace TApplicationServer

/-- Modelled from the spec: the enumeration `TWebApplication::MultiProcessingModule` is
declared outside the sources at hand.  The values are `Thread`, `Prefork`, and anything
else, which the `switch` statements send to their `default:` branch. -/
inductive MultiProcessingModule
  | Thread
  | Prefork
  | Invalid
  deriving DecidableEq, Repr

/-- Calls made by the server, in program order. -/
inductive Event
  | nativeListen (sock : Int)
  | setSocketDescriptor (sock : Int) (ok : Bool)
  | nativeClose (sock : Int)
  | tSystemError
  | tSystemWarn
  | setCurrentLibPath
  | libraryLoad (path : String) (ok : Bool)
  | setCurrentWebRoot
  | instantiate
  | dispatchStaticInit (dispatched : Bool)
  | close
  | construct (p : Nat) (socketDescriptor : Int)
  | connectFinished (p : Nat)
  | insert (p : Nat)
  | start (p : Nat)
  | stop (p : Nat)
  | msleep
  | processEvents
  | deleteLater (p : Nat)
  deriving DecidableEq, Repr

/-- The data members of `TApplicationServer` that the functions below read or write, the
file-level flag `libLoaded`, and the log of calls. -/
structure Server where
  listening : Bool
  libLoaded : Bool
  actionContexts : List Nat
  maxServers : Int
  log : List Event
  deriving DecidableEq, Repr

/-- What the environment answers during one call of `open()`. -/
structure OpenEnv where
  sock : Int
  setSocketDescriptorOk : Bool
  libPathExists : Bool
  libraries : List (String × Bool)
  hookExists : Bool
  deriving DecidableEq, Repr

/-- A freshly constructed server: not listening, nothing loaded, empty registry. -/
def initial (maxServers : Int) : Server :=
  { listening := false, libLoaded := false, actionContexts := [],
    maxServers := maxServers, log := [] }

/-- Append one call to the log. -/
def emit (s : Server) (e : Event) : Server :=
  { s with log := s.log ++ [e] }

/-- The fields of the C++ object and the flag `libLoaded`, without the log. -/
def observable (s : Server) : Bool × Bool × List Nat × Int :=
  (s.listening, s.libLoaded, s.actionContexts, s.maxServers)

/-- The member function `TApplicationServer::isOpen()`. -/
def isOpen (s : Server) : Bool :=
  s.listening

/-- The member function `TApplicationServer::close()`, which calls `QTcpServer::close()`. -/
def close (s : Server) : Server :=
  { emit s Event.close with listening := false }

/-- The member function `TApplicationServer::insertPointer(p)`. -/
def insertPointer (s : Server) (p : Nat) : Server :=
  { emit s (Event.insert p) with actionContexts := s.actionContexts.insert p }

/-- The member function `TApplicationServer::actionContextCount()`. -/
def actionContextCount (s : Server) : Int :=
  (s.actionContexts.length : Int)

/-- The slot `TApplicationServer::deleteActionContext()`, with `sender()` as argument. -/
def deleteActionContext (s : Server) (sender : Nat) : Server :=
  { emit s (Event.deleteLater sender) with
    actionContexts := s.actionContexts.filter (fun q => decide (q ≠ sender)) }

/-- The call `qApp->processEvents()`: the queued `finished()` signals of the workers in
`finished` are delivered. -/
def processEvents (s : Server) (finished : List Nat) : Server :=
  finished.foldl deleteActionContext (emit s Event.processEvents)

/-- The file-level function `invokeStaticInitialize()`. -/
def invokeStaticInitialize (hookExists : Bool) (s : Server) : Server :=
  if hookExists then emit s (Event.dispatchStaticInit true)
  else emit (emit s (Event.dispatchStaticInit false)) Event.tSystemWarn

/-- Lines 86-96 of `open()`: acquire the listening descriptor unless already listening. -/
def acquireDescriptor (env : OpenEnv) (s : Server) : Bool × Server :=
  if s.listening then (true, s)
  else
    let s1 := emit s (Event.nativeListen env.sock)
    if 0 < env.sock then
      if env.setSocketDescriptorOk then
        (true, { emit s1 (Event.setSocketDescriptor env.sock true) with listening := true })
      else
        (false, emit (emit (emit s1 (Event.setSocketDescriptor env.sock false))
          Event.tSystemError) (Event.nativeClose env.sock))
    else
      (false, emit (emit s1 Event.tSystemError) (Event.nativeClose env.sock))

/-- Lines 124-133 of `open()`: try to load each listed library. -/
def loadEach (s : Server) : List (String × Bool) → Server
  | [] => s
  | (path, true) :: rest =>
      loadEach { emit s (Event.libraryLoad path true) with libLoaded := true } rest
  | (path, false) :: rest =>
      loadEach (emit (emit s (Event.libraryLoad path false)) Event.tSystemError) rest

/-- Lines 99-134 of `open()`: the library-loading block. -/
def loadLibraries (env : OpenEnv) (s : Server) : Bool × Server :=
  if s.libLoaded then (true, s)
  else if env.libPathExists then
    (true, loadEach (emit s Event.setCurrentLibPath) env.libraries)
  else
    (false, emit s Event.tSystemError)

/-- Lines 140-156 of `open()`: run the static initializer in the configured context. -/
def runStaticInitializer (mpm : MultiProcessingModule) (hookExists : Bool) (s : Server) :
    Server :=
  match mpm with
  | MultiProcessingModule.Thread => invokeStaticInitialize hookExists s
  | MultiProcessingModule.Prefork => invokeStaticInitialize hookExists s
  | MultiProcessingModule.Invalid => s

/-- The member function `TApplicationServer::open()` (`open` is a reserved word of Lean). -/
def serverOpen (mpm : MultiProcessingModule) (env : OpenEnv) (s : Server) : Bool × Server :=
  match acquireDescriptor env s with
  | (false, s1) => (false, s1)
  | (true, s1) =>
    match loadLibraries env s1 with
    | (false, s2) => (false, s2)
    | (true, s2) =>
      (true, runStaticInitializer mpm env.hookExists
        (emit (emit s2 Event.setCurrentWebRoot) Event.instantiate))

/-- Construct a worker `p` for `socketDescriptor`, connect its `finished()` signal,
register it and start it (lines 205-208 and 218-221). -/
def spawn (s : Server) (socketDescriptor : Int) (p : Nat) : Server :=
  emit (insertPointer (emit (emit s (Event.construct p socketDescriptor))
    (Event.connectFinished p)) p) (Event.start p)

/-- One unsuccessful iteration of the loop in the `Thread` case (lines 211-212). -/
def waitIteration (s : Server) (finished : List Nat) : Server :=
  processEvents (emit s Event.msleep) finished

/-- The state after a number of unsuccessful iterations of the wait loop. -/
def waited (s : Server) (pumps : List (List Nat)) : Server :=
  pumps.foldl waitIteration s

/-- The `for (;;)` loop of the `Thread` case of `incomingConnection`. -/
def threadLoop (socketDescriptor : Int) (p : Nat) : Server → List (List Nat) → Option Server
  | s, [] =>
      if actionContextCount s < s.maxServers then some (spawn s socketDescriptor p) else none
  | s, finished :: rest =>
      if actionContextCount s < s.maxServers then some (spawn s socketDescriptor p)
      else threadLoop socketDescriptor p (waitIteration s finished) rest

/-- The member function `TApplicationServer::incomingConnection(socketDescriptor)`; `p` is
the pointer returned by `new`. -/
def incomingConnection (mpm : MultiProcessingModule) (s : Server) (socketDescriptor : Int)
    (p : Nat) (pumps : List (List Nat)) : Option Server :=
  match mpm with
  | MultiProcessingModule.Thread => threadLoop socketDescriptor p s pumps
  | MultiProcessingModule.Prefork => some (spawn (close s) socketDescriptor p)
  | MultiProcessingModule.Invalid => some s

/-- Lines 181-183 of `terminate()`: call `stop()` on every registered worker. -/
def stopAll (s : Server) : Server :=
  s.actionContexts.foldl (fun t w => emit t (Event.stop w)) s

/-- The drain loop of `terminate()` (lines 186-192). -/
def drain : Server → List (List Nat) → Option Server
  | _, [] => none
  | s, finished :: rest =>
      let s1 := processEvents s finished
      if s1.actionContexts.isEmpty then some s1 else drain s1 rest

/-- The slot `TApplicationServer::terminate()`. -/
def terminate (s : Server) (pumps : List (List Nat)) : Option Server :=
  let s1 := close s
  if 0 < actionContextCount s1 then drain (stopAll s1) pumps else some s1

/-- One call into the server from its event loop. -/
inductive Step
  | openCall (env : OpenEnv)
  | accept (socketDescriptor : Int) (p : Nat) (pumps : List (List Nat))
  | finished (w : Nat)
  deriving DecidableEq, Repr

/-- Perform one call. -/
def step (mpm : MultiProcessingModule) (s : Server) : Step → Option Server
  | Step.openCall env => some (serverOpen mpm env s).2
  | Step.accept sd p pumps => incomingConnection mpm s sd p pumps
  | Step.finished w => some (deleteActionContext s w)

/-- Perform a sequence of calls. -/
def run (mpm : MultiProcessingModule) : Server → List Step → Option Server
  | s, [] => some s
  | s, c :: rest =>
      match step mpm s c with
      | none => none
      | some s1 => run mpm s1 rest

/-- An environment in which `open()` succeeds: the port binds, the library directory
exists and holds one loadable library, and the hook exists. -/
def bindOk : OpenEnv :=
  { sock := 7, setSocketDescriptorOk := true, libPathExists := true,
    libraries := [("libcontroller.so", true)], hookExists := true }

/-- A schedule in which a connection is delivered only while the listener is open and
`open()` is called only while no worker is registered. -/
def orderly (mpm : MultiProcessingModule) : Server → List Step → Bool
  | _, [] => true
  | s, c :: rest =>
      (match c with
        | Step.openCall _ => s.actionContexts.isEmpty
        | Step.accept _ _ _ => s.listening
        | Step.finished _ => true)
      && (match step mpm s c with
        | none => true
        | some s1 => orderly mpm s1 rest)

/-- The workers constructed according to a log, each with its descriptor, in order. -/
def constructed (log : List Event) : List (Nat × Int) :=
  log.filterMap (fun e => match e with
    | Event.construct p sd => some (p, sd)
    | _ => none)

/-- The workers on which `start()` was called according to a log, in order. -/
def started (log : List Event) : List Nat :=
  log.filterMap (fun e => match e with
    | Event.start p => some p
    | _ => none)

/-- The workers on which `stop()` was called according to a log, in order. -/
def stopped (log : List Event) : List Nat :=
  log.filterMap (fun e => match e with
    | Event.stop p => some p
    | _ => none)

/-- The calls that belong to the admission gate: `incomingConnection` and the completion
slot `deleteActionContext`, as opposed to `open()`. -/
def isGateCall : Step → Bool
  | Step.openCall _ => false
  | Step.accept _ _ _ => true
  | Step.finished _ => true

/-- The state after a number of iterations of the drain loop. -/
def pumped (s : Server) (pumps : List (List Nat)) : Server :=
  pumps.foldl processEvents s

/-- The library loads attempted according to a log, each with its outcome, in order. -/
def loadAttempts (log : List Event) : List (String × Bool) :=
  log.filterMap (fun e => match e with
    | Event.libraryLoad path ok => some (path, ok)
    | _ => none)

/-- The runs of `invokeStaticInitialize()` according to a log, each with the outcome of
the dispatch, in order. -/
def staticInitRuns (log : List Event) : List Bool :=
  log.filterMap (fun e => match e with
    | Event.dispatchStaticInit d => some d
    | _ => none)

/-- An environment in which the port cannot be bound. -/
def bindFails : OpenEnv :=
  { sock := -1, setSocketDescriptorOk := false, libPathExists := true,
    libraries := [("libcontroller.so", true)], hookExists := true }

/-- An environment in which the port binds and the library directory does not exist. -/
def libDirMissing : OpenEnv :=
  { sock := 7, setSocketDescriptorOk := true, libPathExists := false,
    libraries := [], hookExists := true }

/-- An environment in which the port binds, the library directory exists and the one
library in it cannot be loaded. -/
def loadFails : OpenEnv :=
  { sock := 7, setSocketDescriptorOk := true, libPathExists := true,
    libraries := [("libcontroller.so", false)], hookExists := true }

/-- The number of `open()` calls that return true in the course of a sequence of calls. -/
def successfulOpens (mpm : MultiProcessingModule) : Server → List Step → Nat
  | _, [] => 0
  | s, c :: rest =>
      (match c with
        | Step.openCall env => if (serverOpen mpm env s).1 then 1 else 0
        | _ => 0)
      + (match step mpm s c with
        | none => 0
        | some s1 => successfulOpens mpm s1 rest)

/-- The calls of the library-loading step of `open()` according to a log: the change into
the library directory, which precedes the scan, and the load attempts. -/
def libraryStep (log : List Event) : List Event :=
  log.filter (fun e => match e with
    | Event.setCurrentLibPath => true
    | Event.libraryLoad _ _ => true
    | _ => false)

/-- One operation on the registry: `insertPointer(p)` or `deleteActionContext()` with
sender `p`. -/
inductive RegistryOp
  | insert (p : Nat)
  | remove (p : Nat)
  deriving DecidableEq, Repr

/-- Perform one registry operation. -/
def applyOp (s : Server) : RegistryOp → Server
  | RegistryOp.insert p => insertPointer s p
  | RegistryOp.remove p => deleteActionContext s p

/-- Perform a sequence of registry operations. -/
def applyOps (s : Server) (ops : List RegistryOp) : Server :=
  ops.foldl applyOp s

/-- The identity `p` has been inserted and not yet removed in the course of `ops`: some
`insert p` is followed by no `remove p`. -/
def pending : List RegistryOp → Nat → Bool
  | [], _ => false
  | RegistryOp.insert q :: rest, p =>
      (decide (q = p) && !decide (RegistryOp.remove p ∈ rest)) || pending rest p
  | RegistryOp.remove _ :: rest, p => pending rest p

/-- The identities inserted in the course of `ops`. -/
def insertedIds (ops : List RegistryOp) : List Nat :=
  ops.filterMap (fun o => match o with
    | RegistryOp.insert p => some p
    | RegistryOp.remove _ => none)

/-- The set of distinct identities inserted and not yet removed in the course of `ops`. -/
def liveIds (ops : List RegistryOp) : Finset Nat :=
  (insertedIds ops).toFinset.filter (fun p => pending ops p = true)

end TApplicationServer

/-! # TSqlObject::tableName

A shallow embedding of `TSqlObject::tableName()` in `src/tsqlobject.cpp`.  A `QString` is a
list of characters; `QChar::isUpper()` and `QChar::toLower()` are the functions of the same
names on `Char`, which agree with them on the basic Latin letters of which class names
consist.  The member `tblName`, which the function updates, is passed in and returned.
-/

namespace TSqlObject

/-- The text `_object`, which the pattern `_object$` looks for at the end. -/
def objectSuffix : List Char := ['_', 'o', 'b', 'j', 'e', 'c', 't']

/-- The `for` loop of `tableName()`, from index `i` on, with the rest of `clsname` still to
be visited and the value of `tblName` so far. -/
def appendName : Nat → List Char → List Char → List Char
  | _, [], tblName => tblName
  | i, c :: rest, tblName =>
      appendName (i + 1) rest
        ((if 0 < i ∧ c.isUpper = true then tblName ++ ['_'] else tblName) ++ [c.toLower])

/-- The call `tblName.remove(QRegExp("_object$"))`: the pattern matches only at the end
of the text. -/
def removeObjectSuffix (t : List Char) : List Char :=
  if t.drop (t.length - 7) = objectSuffix then t.take (t.length - 7) else t

/-- The member function `TSqlObject::tableName()`: the value returned, and the value of
`tblName` afterwards. -/
def tableName (clsname : List Char) (tblName : List Char) : List Char × List Char :=
  if tblName.isEmpty then
    (removeObjectSuffix (appendName 0 clsname tblName),
      removeObjectSuffix (appendName 0 clsname tblName))
  else (tblName, tblName)

/-- The class name with each character lower-cased and an underscore inserted before every
upper-case character at an index greater than 0. -/
def snakeCase (clsname : List Char) : List Char :=
  (clsname.enum.map (fun ic =>
    if 0 < ic.1 ∧ ic.2.isUpper = true then ['_', ic.2.toLower] else [ic.2.toLower])).flatten

end TSqlObject

/-! # The tag pattern of the HTML parser test

A shallow embedding of `HtmlParser::tagcheck` and `HtmlParser::tagcheck_data` in
`src/test/htmlparser/htmlparser.cpp`.  The pattern distinguishes nine classes of
characters; a text is matched through the classes of its characters.  `\w` and `\s` are
taken on the basic Latin range: letters, digits and the underscore; blank, tab, line feed
and carriage return.  Matching is that of regular expressions, `RegularExpression.rmatch`;
`QString::contains(QRegExp)` holds when some part of the text matches.
-/

namespace HtmlParser

/-- The classes of characters that the pattern distinguishes: `<`, `>`, `/`, the double
quote, the single quote, word characters, white space, one of `( ) { } ;`, and the rest. -/
inductive CharClass
  | lt
  | gt
  | slash
  | dquote
  | squote
  | word
  | space
  | bracket
  | other
  deriving DecidableEq, Repr

/-- The class of a character. -/
def classify (c : Char) : CharClass :=
  if c = '<' then CharClass.lt
  else if c = '>' then CharClass.gt
  else if c = '/' then CharClass.slash
  else if c = Char.ofNat 34 then CharClass.dquote
  else if c = Char.ofNat 39 then CharClass.squote
  else if c = '(' ∨ c = ')' ∨ c = Char.ofNat 123 ∨ c = Char.ofNat 125 ∨ c = ';' then
    CharClass.bracket
  else if c.isAlphanum = true ∨ c = '_' then CharClass.word
  else if c.isWhitespace = true then CharClass.space
  else CharClass.other

/-- All classes. -/
def allClasses : List CharClass :=
  [CharClass.lt, CharClass.gt, CharClass.slash, CharClass.dquote, CharClass.squote,
    CharClass.word, CharClass.space, CharClass.bracket, CharClass.other]

/-- The classes of the set `[^'"<>(){};]`. -/
def plainClasses : List CharClass :=
  [CharClass.slash, CharClass.word, CharClass.space, CharClass.other]

/-- A set of characters, as a pattern: one character of one of the listed classes. -/
def anyOf (l : List CharClass) : RegularExpression CharClass :=
  l.foldr (fun c r => RegularExpression.char c + r) 0

/-- The pattern `\w+`. -/
def wordPlus : RegularExpression CharClass :=
  RegularExpression.char CharClass.word
    * RegularExpression.star (RegularExpression.char CharClass.word)

/-- The patterns `"[^"]*"` and `'[^']*'`, for the quote `q`. -/
def quoted (q : CharClass) : RegularExpression CharClass :=
  RegularExpression.char q
    * RegularExpression.star (anyOf (allClasses.filter (fun c => decide (c ≠ q))))
    * RegularExpression.char q

/-- The group `("[^"]*"|'[^']*'|[^'"<>(){};])`. -/
def itemPattern : RegularExpression CharClass :=
  quoted CharClass.dquote + quoted CharClass.squote + anyOf plainClasses

/-- The pattern `reg` of `tagcheck`:
`<(\w+|/\w+)\s*("[^"]*"|'[^']*'|[^'"<>(){};])*>`. -/
def reg : RegularExpression CharClass :=
  RegularExpression.char CharClass.lt
    * (wordPlus + RegularExpression.char CharClass.slash * wordPlus)
    * RegularExpression.star (RegularExpression.char CharClass.space)
    * RegularExpression.star itemPattern
    * RegularExpression.char CharClass.gt

/-- Substring search, as in `QString::contains(QRegExp)`: some part of the text matches. -/
def contains (P : RegularExpression CharClass) (w : List CharClass) : Bool :=
  w.tails.any (fun t => t.inits.any (fun u => P.rmatch u))

/-- The result computed by `tagcheck` for the text `tag`. -/
def tagcheck (tag : String) : Bool :=
  contains reg (tag.toList.map classify)

/-- The rows of `tagcheck_data`: the text and the expected result. -/
def tagcheck_data : List (String × Bool) :=
  [("<html>", true),
   ("<html >", true),
   ("<html />", true),
   ("<HTML/>", true),
   ("<html name=\x22hoge\x22>", true),
   ("<Html name=\x27hoge\x27>", true),
   ("<html \x22default\x22 >", true),
   ("<a name=\x22hoge; return;\x22 >", true),
   ("</html>", true),
   ("<hoge value=\x22hoge\x22/>", true),
   ("<hoge value=\x22hoge\x22 />", true),
   ("<!doctype html>", false),
   ("<html \x27>", false),
   ("<html \x22>", false),
   ("<i; ++i)\x7bfor (j = 0; j>", false),
   ("<i; ++i)\nfor(j=0;j>", false),
   ("<i; ++i) if(j>", false),
   ("<!-->", false),
   ("<!-- >", false),
   ("<!>", false),
   ("<? hoge ?>", false),
   ("<% hoge %>", false),
   ("<!--\n>", false),
   ("<i) echo\x27>\x27", false),
   ("<i) echo \x22>\x22", false)]

/-- One element of the repeated group, in words: a complete double-quoted string, a
complete single-quoted string, or a single character other than `' " < > ( ) { } ;`. -/
inductive Item : List CharClass → Prop
  | doubleQuoted (x : List CharClass) (h : CharClass.dquote ∉ x) :
      Item (CharClass.dquote :: x ++ [CharClass.dquote])
  | singleQuoted (x : List CharClass) (h : CharClass.squote ∉ x) :
      Item (CharClass.squote :: x ++ [CharClass.squote])
  | plain (c : CharClass) (h : c ∈ plainClasses) : Item [c]

/-- A tag text, in words: `<`, an optional `/`, one or more word characters, optional white
space, any sequence of items, then `>`. -/
def TagText (u : List CharClass) : Prop :=
  ∃ (sl name ws : List CharClass) (items : List (List CharClass)),
    u = CharClass.lt :: sl ++ name ++ ws ++ items.flatten ++ [CharClass.gt]
      ∧ (sl = [] ∨ sl = [CharClass.slash])
      ∧ name ≠ [] ∧ (∀ c ∈ name, c = CharClass.word)
      ∧ (∀ c ∈ ws, c = CharClass.space)
      ∧ ∀ t ∈ items, Item t

/-- Where a scan of the text after the tag name stands: outside quotes, inside a
double-quoted string, or inside a single-quoted string. -/
inductive Mode
  | outside
  | inDouble
  | inSingle
  deriving DecidableEq, Repr

/-- Scan the text after the first word character of the tag name from left to right: true
when the closing `>` is reached outside quotes; false on an unquoted `<` or one of
`( ) { } ;`, and when the text ends first. -/
def scan : Mode → List CharClass → Bool
  | _, [] => false
  | Mode.outside, c :: rest =>
      match c with
      | CharClass.gt => true
      | CharClass.dquote => scan Mode.inDouble rest
      | CharClass.squote => scan Mode.inSingle rest
      | CharClass.lt => false
      | CharClass.bracket => false
      | _ => scan Mode.outside rest
  | Mode.inDouble, c :: rest =>
      if c = CharClass.dquote then scan Mode.outside rest else scan Mode.inDouble rest
  | Mode.inSingle, c :: rest =>
      if c = CharClass.squote then scan Mode.outside rest else scan Mode.inSingle rest

/-- A tag text starts at the head of the text. -/
def tagAt : List CharClass → Bool
  | CharClass.lt :: CharClass.word :: rest => scan Mode.outside rest
  | CharClass.lt :: CharClass.slash :: CharClass.word :: rest => scan Mode.outside rest
  | _ => false

/-- A tag text starts somewhere in the text. -/
def hasTag (w : List CharClass) : Bool :=
  w.tails.any tagAt

/-- The characters excluded by the set `[^'"<>(){};]`. -/
def specialChars : List Char :=
  [Char.ofNat 39, Char.ofNat 34, '<', '>', '(', ')', Char.ofNat 123, Char.ofNat 125, ';']

end HtmlParser

namespace TApplicationServer

/-! ## Field lemmas -/

@[simp] theorem emit_listening (s : Server) (e : Event) : (emit s e).listening = s.listening := rfl
@[simp] theorem emit_libLoaded (s : Server) (e : Event) : (emit s e).libLoaded = s.libLoaded := rfl
@[simp] theorem emit_actionContexts (s : Server) (e : Event) :
    (emit s e).actionContexts = s.actionContexts := rfl
@[simp] theorem emit_maxServers (s : Server) (e : Event) : (emit s e).maxServers = s.maxServers := rfl
@[simp] theorem emit_log (s : Server) (e : Event) : (emit s e).log = s.log ++ [e] := rfl

@[simp] theorem close_listening (s : Server) : (close s).listening = false := rfl
@[simp] theorem close_libLoaded (s : Server) : (close s).libLoaded = s.libLoaded := rfl
@[simp] theorem close_actionContexts (s : Server) :
    (close s).actionContexts = s.actionContexts := rfl
@[simp] theorem close_maxServers (s : Server) : (close s).maxServers = s.maxServers := rfl
@[simp] theorem close_log (s : Server) : (close s).log = s.log ++ [Event.close] := rfl

@[simp] theorem insertPointer_listening (s : Server) (p : Nat) :
    (insertPointer s p).listening = s.listening := rfl
@[simp] theorem insertPointer_libLoaded (s : Server) (p : Nat) :
    (insertPointer s p).libLoaded = s.libLoaded := rfl
@[simp] theorem insertPointer_actionContexts (s : Server) (p : Nat) :
    (insertPointer s p).actionContexts = s.actionContexts.insert p := rfl
@[simp] theorem insertPointer_maxServers (s : Server) (p : Nat) :
    (insertPointer s p).maxServers = s.maxServers := rfl
@[simp] theorem insertPointer_log (s : Server) (p : Nat) :
    (insertPointer s p).log = s.log ++ [Event.insert p] := rfl

@[simp] theorem deleteActionContext_listening (s : Server) (w : Nat) :
    (deleteActionContext s w).listening = s.listening := rfl
@[simp] theorem deleteActionContext_libLoaded (s : Server) (w : Nat) :
    (deleteActionContext s w).libLoaded = s.libLoaded := rfl
@[simp] theorem deleteActionContext_actionContexts (s : Server) (w : Nat) :
    (deleteActionContext s w).actionContexts
      = s.actionContexts.filter (fun q => decide (q ≠ w)) := rfl
@[simp] theorem deleteActionContext_maxServers (s : Server) (w : Nat) :
    (deleteActionContext s w).maxServers = s.maxServers := rfl
@[simp] theorem deleteActionContext_log (s : Server) (w : Nat) :
    (deleteActionContext s w).log = s.log ++ [Event.deleteLater w] := rfl

theorem foldl_delete_listening (l : List Nat) (s : Server) :
    (l.foldl deleteActionContext s).listening = s.listening := by
  induction l generalizing s with
  | nil => rfl
  | cons w l ih => simp [List.foldl_cons, ih]

theorem foldl_delete_libLoaded (l : List Nat) (s : Server) :
    (l.foldl deleteActionContext s).libLoaded = s.libLoaded := by
  induction l generalizing s with
  | nil => rfl
  | cons w l ih => simp [List.foldl_cons, ih]

theorem foldl_delete_maxServers (l : List Nat) (s : Server) :
    (l.foldl deleteActionContext s).maxServers = s.maxServers := by
  induction l generalizing s with
  | nil => rfl
  | cons w l ih => simp [List.foldl_cons, ih]

theorem foldl_delete_actionContexts (l : List Nat) (s : Server) :
    (l.foldl deleteActionContext s).actionContexts
      = s.actionContexts.filter (fun q => decide (q ∉ l)) := by
  induction l generalizing s with
  | nil => simp
  | cons w l ih =>
    simp only [List.foldl_cons, ih, deleteActionContext_actionContexts, List.filter_filter]
    apply List.filter_congr
    intro q _
    simp [List.mem_cons, not_or, Bool.and_comm]

theorem foldl_delete_log (l : List Nat) (s : Server) :
    (l.foldl deleteActionContext s).log = s.log ++ l.map Event.deleteLater := by
  induction l generalizing s with
  | nil => simp
  | cons w l ih => simp [List.foldl_cons, ih]

@[simp] theorem processEvents_listening (s : Server) (l : List Nat) :
    (processEvents s l).listening = s.listening := by
  simp [processEvents, foldl_delete_listening]
@[simp] theorem processEvents_libLoaded (s : Server) (l : List Nat) :
    (processEvents s l).libLoaded = s.libLoaded := by
  simp [processEvents, foldl_delete_libLoaded]
@[simp] theorem processEvents_maxServers (s : Server) (l : List Nat) :
    (processEvents s l).maxServers = s.maxServers := by
  simp [processEvents, foldl_delete_maxServers]
@[simp] theorem processEvents_actionContexts (s : Server) (l : List Nat) :
    (processEvents s l).actionContexts = s.actionContexts.filter (fun q => decide (q ∉ l)) := by
  simp [processEvents, foldl_delete_actionContexts]
@[simp] theorem processEvents_log (s : Server) (l : List Nat) :
    (processEvents s l).log = s.log ++ Event.processEvents :: l.map Event.deleteLater := by
  simp [processEvents, foldl_delete_log]

@[simp] theorem waitIteration_listening (s : Server) (l : List Nat) :
    (waitIteration s l).listening = s.listening := by simp [waitIteration]
@[simp] theorem waitIteration_libLoaded (s : Server) (l : List Nat) :
    (waitIteration s l).libLoaded = s.libLoaded := by simp [waitIteration]
@[simp] theorem waitIteration_maxServers (s : Server) (l : List Nat) :
    (waitIteration s l).maxServers = s.maxServers := by simp [waitIteration]
@[simp] theorem waitIteration_actionContexts (s : Server) (l : List Nat) :
    (waitIteration s l).actionContexts = s.actionContexts.filter (fun q => decide (q ∉ l)) := by
  simp [waitIteration]
@[simp] theorem waitIteration_log (s : Server) (l : List Nat) :
    (waitIteration s l).log
      = s.log ++ Event.msleep :: Event.processEvents :: l.map Event.deleteLater := by
  simp [waitIteration]

@[simp] theorem spawn_listening (s : Server) (sd : Int) (p : Nat) :
    (spawn s sd p).listening = s.listening := rfl
@[simp] theorem spawn_libLoaded (s : Server) (sd : Int) (p : Nat) :
    (spawn s sd p).libLoaded = s.libLoaded := rfl
@[simp] theorem spawn_maxServers (s : Server) (sd : Int) (p : Nat) :
    (spawn s sd p).maxServers = s.maxServers := rfl
@[simp] theorem spawn_actionContexts (s : Server) (sd : Int) (p : Nat) :
    (spawn s sd p).actionContexts = s.actionContexts.insert p := rfl
@[simp] theorem spawn_log (s : Server) (sd : Int) (p : Nat) :
    (spawn s sd p).log = s.log ++ [Event.construct p sd, Event.connectFinished p,
      Event.insert p, Event.start p] := by
  simp [spawn]

/-! ## `open()` and the registry -/

theorem invokeStaticInitialize_observable (h : Bool) (s : Server) :
    observable (invokeStaticInitialize h s) = observable s := by
  cases h <;> rfl

theorem runStaticInitializer_observable (mpm : MultiProcessingModule) (h : Bool) (s : Server) :
    observable (runStaticInitializer mpm h s) = observable s := by
  cases mpm <;> simp [runStaticInitializer, invokeStaticInitialize_observable]

theorem loadEach_fields (l : List (String × Bool)) (s : Server) :
    (loadEach s l).listening = s.listening ∧ (loadEach s l).actionContexts = s.actionContexts
      ∧ (loadEach s l).maxServers = s.maxServers := by
  induction l generalizing s with
  | nil => simp [loadEach]
  | cons a l ih =>
    obtain ⟨path, ok⟩ := a
    cases ok
    · simpa [loadEach] using ih (emit (emit s (Event.libraryLoad path false)) Event.tSystemError)
    · simpa [loadEach] using
        ih { emit s (Event.libraryLoad path true) with libLoaded := true }

theorem acquireDescriptor_fields (env : OpenEnv) (s : Server) :
    (acquireDescriptor env s).2.actionContexts = s.actionContexts
      ∧ (acquireDescriptor env s).2.maxServers = s.maxServers
      ∧ (acquireDescriptor env s).2.libLoaded = s.libLoaded := by
  unfold acquireDescriptor
  split
  · simp
  · split
    · split <;> simp
    · simp

theorem loadLibraries_fields (env : OpenEnv) (s : Server) :
    (loadLibraries env s).2.actionContexts = s.actionContexts
      ∧ (loadLibraries env s).2.maxServers = s.maxServers
      ∧ (loadLibraries env s).2.listening = s.listening := by
  unfold loadLibraries
  split
  · simp
  · split
    · have h := loadEach_fields env.libraries (emit s Event.setCurrentLibPath)
      simp [h.1, h.2.1, h.2.2]
    · simp

theorem observable_fields {s t : Server} (h : observable s = observable t) :
    s.listening = t.listening ∧ s.libLoaded = t.libLoaded
      ∧ s.actionContexts = t.actionContexts ∧ s.maxServers = t.maxServers := by
  simpa [observable] using h

theorem serverOpen_registry (mpm : MultiProcessingModule) (env : OpenEnv) (s : Server) :
    (serverOpen mpm env s).2.actionContexts = s.actionContexts
      ∧ (serverOpen mpm env s).2.maxServers = s.maxServers := by
  have ha := acquireDescriptor_fields env s
  have hl := loadLibraries_fields env (acquireDescriptor env s).2
  unfold serverOpen
  rcases hacq : acquireDescriptor env s with ⟨b, s1⟩
  rw [hacq] at ha hl
  cases b
  · exact ⟨ha.1, ha.2.1⟩
  · rcases hld : loadLibraries env s1 with ⟨c, s2⟩
    rw [hld] at hl
    simp only [hld]
    cases c
    · exact ⟨hl.1.trans ha.1, hl.2.1.trans ha.2.1⟩
    · have hr := observable_fields (runStaticInitializer_observable mpm env.hookExists
        (emit (emit s2 Event.setCurrentWebRoot) Event.instantiate))
      simp only [emit_actionContexts, emit_maxServers] at hr
      exact ⟨hr.2.2.1.trans (hl.1.trans ha.1), hr.2.2.2.trans (hl.2.1.trans ha.2.1)⟩

/-! ## The wait loop of the `Thread` case -/

theorem waited_maxServers (pumps : List (List Nat)) (s : Server) :
    (waited s pumps).maxServers = s.maxServers := by
  induction pumps generalizing s with
  | nil => rfl
  | cons a l ih => simp [waited, List.foldl_cons] at ih ⊢; rw [ih]; simp

theorem waited_actionContexts (pumps : List (List Nat)) (s : Server) :
    (waited s pumps).actionContexts
      = s.actionContexts.filter (fun q => decide (∀ l ∈ pumps, q ∉ l)) := by
  induction pumps generalizing s with
  | nil => simp [waited]
  | cons a l ih =>
    simp only [waited, List.foldl_cons] at ih ⊢
    rw [ih, waitIteration_actionContexts, List.filter_filter]
    apply List.filter_congr
    intro q _
    simp [Bool.and_comm]

theorem waited_listening (pumps : List (List Nat)) (s : Server) :
    (waited s pumps).listening = s.listening := by
  induction pumps generalizing s with
  | nil => rfl
  | cons a l ih => simp [waited, List.foldl_cons] at ih ⊢; rw [ih]; simp

theorem actionContextCount_filter_le (s t : Server) (f : Nat → Bool)
    (h : t.actionContexts = s.actionContexts.filter f) :
    actionContextCount t ≤ actionContextCount s := by
  unfold actionContextCount
  rw [h]
  exact_mod_cast List.length_filter_le f s.actionContexts

theorem actionContextCount_spawn_le (s : Server) (sd : Int) (p : Nat) :
    actionContextCount (spawn s sd p) ≤ actionContextCount s + 1 := by
  unfold actionContextCount
  rw [spawn_actionContexts]
  by_cases h : p ∈ s.actionContexts
  · rw [List.insert_of_mem h]; omega
  · rw [List.insert_of_not_mem h]; simp

/-- When the wait loop returns, it has spawned the worker in the first iteration in which
the count was observed below the limit, after `k` unsuccessful iterations. -/
theorem threadLoop_some (sd : Int) (p : Nat) (pumps : List (List Nat)) (s s' : Server)
    (h : threadLoop sd p s pumps = some s') :
    ∃ k, k ≤ pumps.length
      ∧ (∀ j, j < k → s.maxServers ≤ actionContextCount (waited s (pumps.take j)))
      ∧ actionContextCount (waited s (pumps.take k)) < s.maxServers
      ∧ s' = spawn (waited s (pumps.take k)) sd p := by
  induction pumps generalizing s with
  | nil =>
    unfold threadLoop at h
    split at h
    · rename_i hlt
      refine ⟨0, le_refl _, ?_, by simpa [waited] using hlt, ?_⟩
      · intro j hj; omega
      · simpa [waited] using (Option.some.inj h).symm
    · simp at h
  | cons a l ih =>
    unfold threadLoop at h
    split at h
    · rename_i hlt
      refine ⟨0, Nat.zero_le _, ?_, by simpa [waited] using hlt, ?_⟩
      · intro j hj; omega
      · simpa [waited] using (Option.some.inj h).symm
    · rename_i hge
      obtain ⟨k, hk, hwait, hlt, hs'⟩ := ih (waitIteration s a) h
      refine ⟨k + 1, by simpa using hk, ?_, ?_, ?_⟩
      · intro j hj
        cases j with
        | zero => simpa [waited] using not_lt.mp hge
        | succ j =>
          have := hwait j (by omega)
          simpa [waited, waitIteration_maxServers] using this
      · simpa [waited, waitIteration_maxServers] using hlt
      · simpa [waited] using hs'

/-- The wait loop returns as soon as one of the supplied pumps brings the count below the
limit. -/
theorem threadLoop_returns (sd : Int) (p : Nat) (pumps : List (List Nat)) (s : Server)
    (k : Nat) (hk : k ≤ pumps.length)
    (hlt : actionContextCount (waited s (pumps.take k)) < s.maxServers) :
    (threadLoop sd p s pumps).isSome = true := by
  induction pumps generalizing s k with
  | nil =>
    simp [waited] at hlt
    simp [threadLoop, hlt]
  | cons a l ih =>
    unfold threadLoop
    split
    · rfl
    · rename_i hge
      cases k with
      | zero => simp [waited] at hlt; exact absurd hlt hge
      | succ k =>
        apply ih (waitIteration s a) k (by simpa using hk)
        simpa [waited, waitIteration_maxServers] using hlt

/-! ## Runs of the `Thread` configuration -/

theorem step_thread_bound (M : Int) (s s' : Server) (c : Step)
    (hmax : s.maxServers = M) (hle : actionContextCount s ≤ M)
    (h : step MultiProcessingModule.Thread s c = some s') :
    s'.maxServers = M ∧ actionContextCount s' ≤ M := by
  cases c with
  | openCall env =>
    have hr := serverOpen_registry MultiProcessingModule.Thread env s
    simp only [step, Option.some.injEq] at h
    subst h
    refine ⟨hr.2.trans hmax, ?_⟩
    unfold actionContextCount at hle ⊢
    rw [hr.1]; exact hle
  | accept sd p pumps =>
    simp only [step, incomingConnection] at h
    obtain ⟨k, _, _, hlt, hs'⟩ := threadLoop_some sd p pumps s s' h
    subst hs'
    refine ⟨by simp [waited_maxServers, hmax], ?_⟩
    have := actionContextCount_spawn_le (waited s (pumps.take k)) sd p
    omega
  | finished w =>
    simp only [step, Option.some.injEq] at h
    subst h
    refine ⟨hmax, le_trans ?_ hle⟩
    exact actionContextCount_filter_le s _ _ (deleteActionContext_actionContexts s w)

theorem run_thread_bound (M : Int) (calls : List Step) (s s' : Server)
    (hmax : s.maxServers = M) (hle : actionContextCount s ≤ M)
    (h : run MultiProcessingModule.Thread s calls = some s') :
    s'.maxServers = M ∧ actionContextCount s' ≤ M := by
  induction calls generalizing s with
  | nil =>
    simp only [run, Option.some.injEq] at h
    subst h
    exact ⟨hmax, hle⟩
  | cons c rest ih =>
    simp only [run] at h
    cases hc : step MultiProcessingModule.Thread s c with
    | none => rw [hc] at h; simp at h
    | some s1 =>
      rw [hc] at h
      obtain ⟨h1, h2⟩ := step_thread_bound M s s1 c hmax hle hc
      exact ih s1 h1 h2 h

/-- C1: in the `Thread` configuration with `maxServers = M ≥ 1`, every state reached from the
empty registry by a sequence of `open()`, `incomingConnection` and completion calls has
`actionContextCount() ≤ M`; so has every state inside a wait iteration; and a call of
`incomingConnection` that returns has inserted its worker in an iteration in which
`actionContextCount() < M` was observed. -/
theorem thread_admission_bound (M : Int) (hM : 1 ≤ M) (calls : List Step) (s : Server)
    (h : run MultiProcessingModule.Thread (initial M) calls = some s) :
    actionContextCount s ≤ M
      ∧ (∀ finished, actionContextCount (waitIteration s finished) ≤ M)
      ∧ (∀ sd p pumps s',
          incomingConnection MultiProcessingModule.Thread s sd p pumps = some s' →
          ∃ k, k ≤ pumps.length
            ∧ actionContextCount (waited s (pumps.take k)) < M
            ∧ s' = spawn (waited s (pumps.take k)) sd p
            ∧ actionContextCount s' ≤ M) := by
  have h0 : actionContextCount (initial M) ≤ M := by
    simp only [actionContextCount, initial, List.length_nil]; omega
  obtain ⟨hmax, hle⟩ := run_thread_bound M calls (initial M) s rfl h0 h
  refine ⟨hle, ?_, ?_⟩
  · intro finished
    exact le_trans
      (actionContextCount_filter_le s _ _ (waitIteration_actionContexts s finished)) hle
  · intro sd p pumps s' hs'
    simp only [incomingConnection] at hs'
    obtain ⟨k, hk, _, hlt, heq⟩ := threadLoop_some sd p pumps s s' hs'
    rw [hmax] at hlt
    refine ⟨k, hk, hlt, heq, ?_⟩
    have := actionContextCount_spawn_le (waited s (pumps.take k)) sd p
    rw [heq]; omega

/-- C1, instance: `M = 1`, two connections, the second admitted after the first worker has
finished. -/
theorem thread_admission_bound_witness :
    run MultiProcessingModule.Thread (initial 1)
        [Step.accept 5 100 [], Step.accept 6 101 [[100]]]
      = some (spawn (waitIteration (spawn (initial 1) 5 100) [100]) 6 101)
    ∧ actionContextCount (spawn (waitIteration (spawn (initial 1) 5 100) [100]) 6 101) ≤ 1 :=
  ⟨rfl, (thread_admission_bound 1 (by decide)
    [Step.accept 5 100 [], Step.accept 6 101 [[100]]] _ rfl).1⟩

/-! ## Runs of the `Prefork` configuration -/

theorem step_prefork_orderly (s : Server) (c : Step)
    (hopen : s.listening = true → s.actionContexts = [])
    (hlen : s.actionContexts.length ≤ 1)
    (hc : (match c with
        | Step.openCall _ => s.actionContexts.isEmpty
        | Step.accept _ _ _ => s.listening
        | Step.finished _ => true) = true) :
    ∃ s', step MultiProcessingModule.Prefork s c = some s'
      ∧ (s'.listening = true → s'.actionContexts = [])
      ∧ s'.actionContexts.length ≤ 1 ∧ s'.maxServers = s.maxServers := by
  cases c with
  | openCall env =>
    have hr := serverOpen_registry MultiProcessingModule.Prefork env s
    have he : s.actionContexts = [] := by simpa using hc
    refine ⟨_, rfl, ?_, ?_, hr.2⟩
    · intro _; rw [hr.1]; exact he
    · rw [hr.1]; exact hlen
  | accept sd p pumps =>
    have he : s.actionContexts = [] := hopen (by simpa using hc)
    refine ⟨_, rfl, ?_, ?_, rfl⟩
    · intro hl; simp at hl
    · simp [he]
  | finished w =>
    refine ⟨_, rfl, ?_, ?_, rfl⟩
    · intro hl
      have := hopen (by simpa using hl)
      simp [this]
    · exact le_trans (List.length_filter_le _ _) hlen

theorem run_prefork_orderly (calls : List Step) (s : Server)
    (hopen : s.listening = true → s.actionContexts = [])
    (hlen : s.actionContexts.length ≤ 1)
    (hord : orderly MultiProcessingModule.Prefork s calls = true) :
    ∃ s', run MultiProcessingModule.Prefork s calls = some s'
      ∧ s'.actionContexts.length ≤ 1 ∧ s'.maxServers = s.maxServers := by
  induction calls generalizing s with
  | nil => exact ⟨s, rfl, hlen, rfl⟩
  | cons c rest ih =>
    simp only [orderly, Bool.and_eq_true] at hord
    obtain ⟨s1, hs1, h1, h2, h3⟩ := step_prefork_orderly s c hopen hlen hord.1
    have hrest := hord.2
    rw [hs1] at hrest
    obtain ⟨s', hs', h4, h5⟩ := ih s1 h1 h2 hrest
    exact ⟨s', by simp [run, hs1, hs'], h4, h5.trans h3⟩

/-- C2, as stated, fails: with `maxServers = 1`, `open()`, a connection, `open()` again and
a second connection (each delivered while the listener is open) leave two registered
workers. -/
theorem prefork_exceeds_maxServers :
    (run MultiProcessingModule.Prefork (initial 1)
        [Step.openCall bindOk, Step.accept 5 100 [], Step.openCall bindOk]).map isOpen
      = some true
    ∧ (run MultiProcessingModule.Prefork (initial 1)
        [Step.openCall bindOk, Step.accept 5 100 [], Step.openCall bindOk,
          Step.accept 6 101 []]).map (fun s => (s.maxServers, actionContextCount s))
      = some (1, 2) := by
  constructor <;> rfl

/-- C2, amended: the `Prefork` case of `incomingConnection` does not consult `maxServers`;
it closes the listener and registers one worker.  In every schedule from the empty
registry with `maxServers = M ≥ 1` in which connections are delivered only while the
listener is open and `open()` is called only while no worker is registered, every call
returns and the live-worker count is at most 1, hence at most `M`. -/
theorem prefork_orderly_bound (M : Int) (hM : 1 ≤ M) (calls : List Step)
    (hord : orderly MultiProcessingModule.Prefork (initial M) calls = true) :
    ∃ s, run MultiProcessingModule.Prefork (initial M) calls = some s
      ∧ actionContextCount s ≤ 1 ∧ actionContextCount s ≤ M := by
  obtain ⟨s, hs, hlen, _⟩ := run_prefork_orderly calls (initial M)
    (by intro h; rfl) (by simp [initial]) hord
  refine ⟨s, hs, ?_, ?_⟩ <;> unfold actionContextCount <;> omega

/-- C2, amended, instance: one listening period after another, `M = 1`. -/
theorem prefork_orderly_bound_witness :
    ∃ s, run MultiProcessingModule.Prefork (initial 1)
        [Step.openCall bindOk, Step.accept 5 100 [], Step.finished 100,
          Step.openCall bindOk, Step.accept 6 101 []] = some s
      ∧ actionContextCount s ≤ 1 ∧ actionContextCount s ≤ 1 :=
  prefork_orderly_bound 1 (by decide)
    [Step.openCall bindOk, Step.accept 5 100 [], Step.finished 100,
      Step.openCall bindOk, Step.accept 6 101 []] (by rfl)

/-! ## The `Thread` case at capacity -/

theorem waited_log_prefix (pumps : List (List Nat)) (s : Server) :
    ∃ tail, (waited s pumps).log = s.log ++ tail
      ∧ ∀ e ∈ tail, e = Event.msleep ∨ e = Event.processEvents ∨ ∃ w, e = Event.deleteLater w := by
  induction pumps generalizing s with
  | nil => exact ⟨[], by simp [waited], by simp⟩
  | cons a l ih =>
    obtain ⟨tail, htail, hev⟩ := ih (waitIteration s a)
    refine ⟨Event.msleep :: Event.processEvents :: a.map Event.deleteLater ++ tail, ?_, ?_⟩
    · have : waited s (a :: l) = waited (waitIteration s a) l := rfl
      rw [this, htail, waitIteration_log]
      simp
    · intro e he
      simp only [List.cons_append, List.mem_cons, List.mem_append, List.mem_map] at he
      rcases he with h | h | ⟨w, _, h⟩ | h
      · exact Or.inl h
      · exact Or.inr (Or.inl h)
      · exact Or.inr (Or.inr ⟨w, h.symm⟩)
      · exact hev e h

theorem incomingConnection_thread_full (s s' : Server) (sd : Int) (p : Nat)
    (pumps : List (List Nat)) (hfull : s.maxServers ≤ actionContextCount s)
    (h : incomingConnection MultiProcessingModule.Thread s sd p pumps = some s') :
    ∃ k, 0 < k ∧ k ≤ pumps.length
      ∧ (∀ j, j < k → s.maxServers ≤ actionContextCount (waited s (pumps.take j)))
      ∧ actionContextCount (waited s (pumps.take k)) < s.maxServers
      ∧ s' = spawn (waited s (pumps.take k)) sd p := by
  simp only [incomingConnection] at h
  obtain ⟨k, hk, hwait, hlt, hs'⟩ := threadLoop_some sd p pumps s s' h
  refine ⟨k, ?_, hk, hwait, hlt, hs'⟩
  rcases Nat.eq_zero_or_pos k with h0 | h0
  · subst h0
    simp only [List.take_zero, waited, List.foldl_nil] at hlt
    omega
  · exact h0

theorem incomingConnection_thread_single (s s' : Server) (sd : Int) (p first : Nat)
    (pumps : List (List Nat)) (hmax : s.maxServers = 1) (hreg : s.actionContexts = [first])
    (h : incomingConnection MultiProcessingModule.Thread s sd p pumps = some s') :
    ∃ k, 0 < k ∧ k ≤ pumps.length
      ∧ (∃ l ∈ pumps.take k, first ∈ l)
      ∧ (waited s (pumps.take k)).actionContexts = []
      ∧ s' = spawn (waited s (pumps.take k)) sd p
      ∧ s'.actionContexts = [p]
      ∧ actionContextCount (deleteActionContext s' p) = 0 := by
  have hfull : s.maxServers ≤ actionContextCount s := by
    simp [actionContextCount, hmax, hreg]
  obtain ⟨k, h0, hk, _, hlt, hs'⟩ := incomingConnection_thread_full s s' sd p pumps hfull h
  have hnil : (waited s (pumps.take k)).actionContexts = [] := by
    rw [hmax] at hlt
    unfold actionContextCount at hlt
    apply List.eq_nil_of_length_eq_zero
    omega
  have hrem : ∃ l ∈ pumps.take k, first ∈ l := by
    by_contra hcon
    push_neg at hcon
    rw [waited_actionContexts, hreg] at hnil
    simp [List.filter_cons, hcon] at hnil
    obtain ⟨l, hl, hmem⟩ := hnil
    exact hcon l hl hmem
  have hp : s'.actionContexts = [p] := by
    rw [hs', spawn_actionContexts, hnil]; rfl
  refine ⟨k, h0, hk, hrem, hnil, hs', hp, ?_⟩
  simp [actionContextCount, hp]

/-- C3: `Thread` case entered at capacity (`actionContextCount() ≥ maxServers`).  A wait
iteration only calls `msleep` and `processEvents`; the registry loses the workers whose
completion is delivered and gains nothing.  While no pump brings the count below
`maxServers` the call does not return; once one does, it returns; and when it returns,
at least one wait iteration has passed, the count was below `maxServers` at admission, and
exactly one worker, for the same descriptor, is constructed, registered and started.
With `maxServers = 1` and two back-to-back connections the second worker is registered
only after the completion of the first has been delivered and the registry is empty, and
the count is 0 after the second completes. -/
theorem thread_capacity_wait (s : Server) (sd : Int) (p : Nat)
    (hfull : s.maxServers ≤ actionContextCount s) :
    (∀ finished,
        (waitIteration s finished).actionContexts
            = s.actionContexts.filter (fun q => decide (q ∉ finished))
        ∧ (waitIteration s finished).log
            = s.log ++ Event.msleep :: Event.processEvents :: finished.map Event.deleteLater)
      ∧ (waitIteration s []).actionContexts = s.actionContexts
      ∧ (∀ pumps,
          (∀ k, k ≤ pumps.length →
            s.maxServers ≤ actionContextCount (waited s (pumps.take k))) →
          incomingConnection MultiProcessingModule.Thread s sd p pumps = none)
      ∧ (∀ pumps k, k ≤ pumps.length →
          actionContextCount (waited s (pumps.take k)) < s.maxServers →
          (incomingConnection MultiProcessingModule.Thread s sd p pumps).isSome = true)
      ∧ (∀ pumps s', incomingConnection MultiProcessingModule.Thread s sd p pumps = some s' →
          ∃ k, 0 < k ∧ k ≤ pumps.length
            ∧ (∀ j, j < k → s.maxServers ≤ actionContextCount (waited s (pumps.take j)))
            ∧ actionContextCount (waited s (pumps.take k)) < s.maxServers
            ∧ s'.actionContexts = (waited s (pumps.take k)).actionContexts.insert p
            ∧ s'.log = (waited s (pumps.take k)).log
                ++ [Event.construct p sd, Event.connectFinished p, Event.insert p,
                    Event.start p])
      ∧ (∀ (sd1 sd2 : Int) (p1 p2 : Nat) (pumps1 pumps2 : List (List Nat)),
          incomingConnection MultiProcessingModule.Thread (initial 1) sd1 p1 pumps1
              = some (spawn (initial 1) sd1 p1)
          ∧ (spawn (initial 1) sd1 p1).actionContexts = [p1]
          ∧ ∀ s2, incomingConnection MultiProcessingModule.Thread (spawn (initial 1) sd1 p1)
                sd2 p2 pumps2 = some s2 →
              ∃ k, 0 < k ∧ k ≤ pumps2.length
                ∧ (∃ l ∈ pumps2.take k, p1 ∈ l)
                ∧ (waited (spawn (initial 1) sd1 p1) (pumps2.take k)).actionContexts = []
                ∧ s2 = spawn (waited (spawn (initial 1) sd1 p1) (pumps2.take k)) sd2 p2
                ∧ s2.actionContexts = [p2]
                ∧ actionContextCount (deleteActionContext s2 p2) = 0) := by
  refine ⟨fun finished => ⟨waitIteration_actionContexts s finished,
    waitIteration_log s finished⟩, by simp, ?_, ?_, ?_, ?_⟩
  · intro pumps hall
    cases hres : incomingConnection MultiProcessingModule.Thread s sd p pumps with
    | none => rfl
    | some s' =>
      obtain ⟨k, _, hk, _, hlt, _⟩ := incomingConnection_thread_full s s' sd p pumps hfull hres
      have := hall k hk
      omega
  · intro pumps k hk hlt
    exact threadLoop_returns sd p pumps s k hk hlt
  · intro pumps s' hres
    obtain ⟨k, h0, hk, hwait, hlt, hs'⟩ :=
      incomingConnection_thread_full s s' sd p pumps hfull hres
    refine ⟨k, h0, hk, hwait, hlt, ?_, ?_⟩
    · rw [hs', spawn_actionContexts]
    · rw [hs', spawn_log]
  · intro sd1 sd2 p1 p2 pumps1 pumps2
    refine ⟨?_, rfl, ?_⟩
    · cases pumps1 <;> simp [incomingConnection, threadLoop, actionContextCount, initial]
    · intro s2 hs2
      exact incomingConnection_thread_single (spawn (initial 1) sd1 p1) s2 sd2 p2 p1 pumps2
        rfl rfl hs2

/-- C3, instance: `maxServers = 1`, worker 100 registered, a second connection arrives.
With two pumps that deliver nothing the call does not return; when the second pump
delivers the completion of worker 100 it returns. -/
theorem thread_capacity_wait_witness :
    (spawn (initial 1) 5 100).maxServers ≤ actionContextCount (spawn (initial 1) 5 100)
      ∧ incomingConnection MultiProcessingModule.Thread (spawn (initial 1) 5 100) 6 101
          [[], []] = none
      ∧ (incomingConnection MultiProcessingModule.Thread (spawn (initial 1) 5 100) 6 101
          [[], [100]]).isSome = true :=
  ⟨by decide,
   (thread_capacity_wait (spawn (initial 1) 5 100) 6 101 (by decide)).2.2.1 [[], []]
     (by decide),
   (thread_capacity_wait (spawn (initial 1) 5 100) 6 101 (by decide)).2.2.2.1 [[], [100]] 2
     (by decide) (by decide)⟩

/-! ## One worker per admitted connection -/

theorem constructed_append (l1 l2 : List Event) :
    constructed (l1 ++ l2) = constructed l1 ++ constructed l2 := by
  simp [constructed, List.filterMap_append]

theorem started_append (l1 l2 : List Event) :
    started (l1 ++ l2) = started l1 ++ started l2 := by
  simp [started, List.filterMap_append]

theorem waited_constructed_started (pumps : List (List Nat)) (s : Server) :
    constructed (waited s pumps).log = constructed s.log
      ∧ started (waited s pumps).log = started s.log := by
  obtain ⟨tail, htail, hev⟩ := waited_log_prefix pumps s
  have hc : constructed tail = [] := by
    unfold constructed
    rw [List.filterMap_eq_nil_iff]
    intro e he
    rcases hev e he with h | h | ⟨w, h⟩ <;> subst h <;> rfl
  have hs : started tail = [] := by
    unfold started
    rw [List.filterMap_eq_nil_iff]
    intro e he
    rcases hev e he with h | h | ⟨w, h⟩ <;> subst h <;> rfl
  rw [htail, constructed_append, started_append, hc, hs]
  simp

theorem spawn_fresh (s : Server) (sd : Int) (p : Nat) (hfresh : p ∉ s.actionContexts) :
    actionContextCount (spawn s sd p) = actionContextCount s + 1
      ∧ constructed (spawn s sd p).log = constructed s.log ++ [(p, sd)]
      ∧ started (spawn s sd p).log = started s.log ++ [p] := by
  refine ⟨?_, ?_, ?_⟩
  · simp [actionContextCount, List.insert_of_not_mem hfresh]
  · rw [spawn_log, constructed_append]; rfl
  · rw [spawn_log, started_append]; rfl

/-- C4, as stated, fails: with a module value other than `Thread` and `Prefork` the call
returns without constructing or starting a worker, and the count is unchanged. -/
theorem incomingConnection_default_spawns_nothing :
    (incomingConnection MultiProcessingModule.Invalid (initial 1) 5 100 []).map
        (fun s => (actionContextCount s, constructed s.log, started s.log))
      = some (actionContextCount (initial 1), [], []) := by
  rfl

/-- C4, amended: when `incomingConnection` returns for a descriptor `sd`, with `p` the
pointer of the new worker (distinct from the registered ones): in the `Thread` and in the
`Prefork` case exactly one worker has been constructed for `sd` and started, and the
registry count is one greater than at the moment of admission (after the wait iterations
in the `Thread` case); for any other module value the call changes nothing. -/
theorem incomingConnection_one_worker (mpm : MultiProcessingModule) (s s' : Server)
    (sd : Int) (p : Nat) (pumps : List (List Nat)) (hfresh : p ∉ s.actionContexts)
    (h : incomingConnection mpm s sd p pumps = some s') :
    (mpm = MultiProcessingModule.Thread →
        ∃ k, k ≤ pumps.length
          ∧ actionContextCount (waited s (pumps.take k)) < s.maxServers
          ∧ actionContextCount s' = actionContextCount (waited s (pumps.take k)) + 1
          ∧ constructed s'.log = constructed s.log ++ [(p, sd)]
          ∧ started s'.log = started s.log ++ [p])
      ∧ (mpm = MultiProcessingModule.Prefork →
          actionContextCount s' = actionContextCount s + 1
          ∧ constructed s'.log = constructed s.log ++ [(p, sd)]
          ∧ started s'.log = started s.log ++ [p])
      ∧ (mpm = MultiProcessingModule.Invalid → s' = s) := by
  refine ⟨?_, ?_, ?_⟩
  · intro hm
    subst hm
    simp only [incomingConnection] at h
    obtain ⟨k, hk, _, hlt, hs'⟩ := threadLoop_some sd p pumps s s' h
    have hfresh' : p ∉ (waited s (pumps.take k)).actionContexts := by
      rw [waited_actionContexts]
      intro hmem
      exact hfresh (List.mem_filter.mp hmem).1
    obtain ⟨h1, h2, h3⟩ := spawn_fresh (waited s (pumps.take k)) sd p hfresh'
    obtain ⟨h4, h5⟩ := waited_constructed_started (pumps.take k) s
    subst hs'
    exact ⟨k, hk, hlt, h1, by rw [h2, h4], by rw [h3, h5]⟩
  · intro hm
    subst hm
    simp only [incomingConnection, Option.some.injEq] at h
    subst h
    obtain ⟨h1, h2, h3⟩ := spawn_fresh (close s) sd p hfresh
    refine ⟨h1, ?_, ?_⟩
    · rw [h2, close_log, constructed_append]; simp [constructed]
    · rw [h3, close_log, started_append]; simp [started]
  · intro hm
    subst hm
    simp only [incomingConnection, Option.some.injEq] at h
    exact h.symm

/-- C4, amended, instance: `Thread` case, limit 2, worker 100 registered, worker 101
admitted for descriptor 6 without waiting. -/
theorem incomingConnection_one_worker_witness :
    ∃ k, k ≤ 0
      ∧ actionContextCount (waited (spawn (initial 2) 5 100) (List.take k [])) < 2
      ∧ actionContextCount (spawn (spawn (initial 2) 5 100) 6 101)
          = actionContextCount (waited (spawn (initial 2) 5 100) (List.take k [])) + 1
      ∧ constructed (spawn (spawn (initial 2) 5 100) 6 101).log
          = constructed (spawn (initial 2) 5 100).log ++ [(101, 6)]
      ∧ started (spawn (spawn (initial 2) 5 100) 6 101).log
          = started (spawn (initial 2) 5 100).log ++ [101] :=
  (incomingConnection_one_worker MultiProcessingModule.Thread (spawn (initial 2) 5 100)
    (spawn (spawn (initial 2) 5 100) 6 101) 6 101 [] (by decide) rfl).1 rfl

/-! ## The listener in the `Prefork` case -/

theorem run_prefork_gate_closed (calls : List Step) (s : Server)
    (hclosed : s.listening = false) (hgate : calls.all isGateCall = true) :
    ∃ t, run MultiProcessingModule.Prefork s calls = some t ∧ t.listening = false := by
  induction calls generalizing s with
  | nil => exact ⟨s, rfl, hclosed⟩
  | cons c rest ih =>
    simp only [List.all_cons, Bool.and_eq_true] at hgate
    cases c with
    | openCall env => simp [isGateCall] at hgate
    | accept sd p pumps =>
      obtain ⟨t, ht, hl⟩ := ih (spawn (close s) sd p) rfl hgate.2
      exact ⟨t, by simpa [run, step, incomingConnection] using ht, hl⟩
    | finished w =>
      obtain ⟨t, ht, hl⟩ := ih (deleteActionContext s w) hclosed hgate.2
      exact ⟨t, by simpa [run, step] using ht, hl⟩

/-- C5: in the `Prefork` case `incomingConnection` returns at once; it calls `close()`
first, then constructs, connects, registers and starts the worker; `isOpen()` is false
after the `close()` and on return, the worker is registered, and after any further
sequence of gate calls (`incomingConnection`, `deleteActionContext`) `isOpen()` is still
false. -/
theorem prefork_listener_closed (s : Server) (sd : Int) (p : Nat) (pumps : List (List Nat))
    (calls : List Step) (hgate : calls.all isGateCall = true) :
    incomingConnection MultiProcessingModule.Prefork s sd p pumps
        = some (spawn (close s) sd p)
      ∧ isOpen (close s) = false
      ∧ (spawn (close s) sd p).log
          = s.log ++ [Event.close, Event.construct p sd, Event.connectFinished p,
              Event.insert p, Event.start p]
      ∧ isOpen (spawn (close s) sd p) = false
      ∧ p ∈ (spawn (close s) sd p).actionContexts
      ∧ ∃ t, run MultiProcessingModule.Prefork (spawn (close s) sd p) calls = some t
          ∧ isOpen t = false := by
  refine ⟨rfl, rfl, by simp, rfl, by simp, ?_⟩
  exact run_prefork_gate_closed calls (spawn (close s) sd p) rfl hgate

/-- C5, instance: a listening server admits a connection, then a further connection and a
completion of another worker are handled; the listener is closed throughout. -/
theorem prefork_listener_closed_witness :
    isOpen (serverOpen MultiProcessingModule.Prefork bindOk (initial 1)).2 = true
      ∧ ∃ t, run MultiProcessingModule.Prefork
            (spawn (close (serverOpen MultiProcessingModule.Prefork bindOk (initial 1)).2)
              5 100)
            [Step.finished 7, Step.accept 6 101 []] = some t
          ∧ isOpen t = false :=
  ⟨rfl, (prefork_listener_closed
    (serverOpen MultiProcessingModule.Prefork bindOk (initial 1)).2 5 100 []
    [Step.finished 7, Step.accept 6 101 []] rfl).2.2.2.2.2⟩

/-! ## Completion in the `Prefork` case -/

theorem acquireDescriptor_true (env : OpenEnv) (s : Server)
    (h : (acquireDescriptor env s).1 = true) : (acquireDescriptor env s).2.listening = true := by
  unfold acquireDescriptor at h ⊢
  split
  · assumption
  · rename_i hl
    rw [if_neg hl] at h
    split
    · rename_i hs
      rw [if_pos hs] at h
      split
      · rfl
      · rename_i hd
        rw [if_neg hd] at h
        simp at h
    · rename_i hs
      rw [if_neg hs] at h
      simp at h

theorem serverOpen_true_listening (mpm : MultiProcessingModule) (env : OpenEnv) (s : Server)
    (h : (serverOpen mpm env s).1 = true) : (serverOpen mpm env s).2.listening = true := by
  have ha := acquireDescriptor_true env s
  have hl := loadLibraries_fields env (acquireDescriptor env s).2
  unfold serverOpen at h ⊢
  rcases hacq : acquireDescriptor env s with ⟨b, s1⟩
  rw [hacq] at ha hl h
  cases b
  · simp at h
  · rcases hld : loadLibraries env s1 with ⟨c, s2⟩
    rw [hld] at hl
    simp only [hld] at h ⊢
    cases c
    · simp at h
    · have hr := observable_fields (runStaticInitializer_observable mpm env.hookExists
        (emit (emit s2 Event.setCurrentWebRoot) Event.instantiate))
      simp only [emit_listening] at hr
      exact hr.1.trans (hl.2.2.trans (ha rfl))

/-- C6, as stated, fails: in the `Prefork` case, after `open()`, one admitted connection
and the completion of its worker, the registry is empty and `isOpen()` is false. -/
theorem prefork_completion_not_reopened :
    (run MultiProcessingModule.Prefork (initial 1) [Step.openCall bindOk]).map isOpen
        = some true
      ∧ (run MultiProcessingModule.Prefork (initial 1)
          [Step.openCall bindOk, Step.accept 5 100 [], Step.finished 100]).map
            (fun s => (isOpen s, actionContextCount s))
        = some (false, 0) := by
  constructor <;> rfl

/-! ## `terminate()` -/

theorem foldl_stop (l : List Nat) (s : Server) :
    l.foldl (fun t w => emit t (Event.stop w)) s
      = { s with log := s.log ++ l.map Event.stop } := by
  induction l generalizing s with
  | nil => simp
  | cons w l ih =>
    rw [List.foldl_cons, ih]
    simp [emit]

@[simp] theorem stopAll_listening (s : Server) : (stopAll s).listening = s.listening := by
  simp [stopAll, foldl_stop]
@[simp] theorem stopAll_libLoaded (s : Server) : (stopAll s).libLoaded = s.libLoaded := by
  simp [stopAll, foldl_stop]
@[simp] theorem stopAll_actionContexts (s : Server) :
    (stopAll s).actionContexts = s.actionContexts := by
  simp [stopAll, foldl_stop]
@[simp] theorem stopAll_maxServers (s : Server) : (stopAll s).maxServers = s.maxServers := by
  simp [stopAll, foldl_stop]
@[simp] theorem stopAll_log (s : Server) :
    (stopAll s).log = s.log ++ s.actionContexts.map Event.stop := by
  simp [stopAll, foldl_stop]

theorem pumped_cons (s : Server) (a : List Nat) (l : List (List Nat)) :
    pumped s (a :: l) = pumped (processEvents s a) l := rfl

theorem pumped_listening (pumps : List (List Nat)) (s : Server) :
    (pumped s pumps).listening = s.listening := by
  induction pumps generalizing s with
  | nil => rfl
  | cons a l ih => rw [pumped_cons, ih, processEvents_listening]

theorem pumped_log_prefix (pumps : List (List Nat)) (s : Server) :
    ∃ tail, (pumped s pumps).log = s.log ++ tail
      ∧ ∀ e ∈ tail, e = Event.processEvents ∨ ∃ w, e = Event.deleteLater w := by
  induction pumps generalizing s with
  | nil => exact ⟨[], by simp [pumped], by simp⟩
  | cons a l ih =>
    obtain ⟨tail, htail, hev⟩ := ih (processEvents s a)
    refine ⟨Event.processEvents :: a.map Event.deleteLater ++ tail, ?_, ?_⟩
    · rw [pumped_cons, htail, processEvents_log]
      simp
    · intro e he
      simp only [List.cons_append, List.mem_cons, List.mem_append, List.mem_map] at he
      rcases he with h | ⟨w, _, h⟩ | h
      · exact Or.inl h
      · exact Or.inr ⟨w, h.symm⟩
      · exact hev e h

/-- When the drain loop exits, it does so in the first iteration, the `k`-th, after whose
`processEvents()` the registry is empty. -/
theorem drain_some (pumps : List (List Nat)) (s s' : Server) (h : drain s pumps = some s') :
    ∃ k, 0 < k ∧ k ≤ pumps.length ∧ s' = pumped s (pumps.take k)
      ∧ s'.actionContexts = []
      ∧ ∀ j, 0 < j → j < k → (pumped s (pumps.take j)).actionContexts ≠ [] := by
  induction pumps generalizing s with
  | nil => simp [drain] at h
  | cons a l ih =>
    simp only [drain] at h
    split at h
    · rename_i hempty
      have hs' : s' = processEvents s a := (Option.some.inj h).symm
      refine ⟨1, Nat.one_pos, by simp, by simpa [pumped] using hs', ?_, ?_⟩
      · rw [hs']; simpa using hempty
      · intro j h0 h1; omega
    · rename_i hne
      obtain ⟨k, h0, hk, hs', hnil, hbefore⟩ := ih (processEvents s a) h
      refine ⟨k + 1, Nat.succ_pos _, by simpa using hk, ?_, hnil, ?_⟩
      · simpa [pumped_cons] using hs'
      · intro j hj0 hjk
        cases j with
        | zero => omega
        | succ j =>
          rw [List.take_succ_cons, pumped_cons]
          rcases Nat.eq_zero_or_pos j with hz | hpos
          · subst hz
            simpa [pumped] using hne
          · exact hbefore j hpos (by omega)

/-- The drain loop exits once a pump has emptied the registry. -/
theorem drain_returns (pumps : List (List Nat)) (s : Server) (k : Nat) (h0 : 0 < k)
    (hk : k ≤ pumps.length) (hnil : (pumped s (pumps.take k)).actionContexts = []) :
    (drain s pumps).isSome = true := by
  induction pumps generalizing s k with
  | nil => simp at hk; omega
  | cons a l ih =>
    simp only [drain]
    split
    · rfl
    · cases k with
      | zero => omega
      | succ k =>
        rw [List.take_succ_cons, pumped_cons] at hnil
        rcases Nat.eq_zero_or_pos k with hz | hpos
        · subst hz
          rename_i hne
          simp only [List.take_zero, pumped, List.foldl_nil] at hnil
          rw [hnil] at hne
          exact absurd rfl hne
        · exact ih (processEvents s a) k hpos (by simpa using hk) hnil

theorem stopped_append (l1 l2 : List Event) :
    stopped (l1 ++ l2) = stopped l1 ++ stopped l2 := by
  simp [stopped, List.filterMap_append]

theorem stopped_map_stop (l : List Nat) : stopped (l.map Event.stop) = l := by
  induction l with
  | nil => rfl
  | cons w l ih =>
    have : stopped (Event.stop w :: l.map Event.stop) = w :: stopped (l.map Event.stop) := rfl
    rw [List.map_cons, this, ih]

/-- The registry of a state reached from the initial state holds no worker twice. -/
theorem run_nodup (mpm : MultiProcessingModule) (calls : List Step) (s s' : Server)
    (hnd : s.actionContexts.Nodup) (h : run mpm s calls = some s') :
    s'.actionContexts.Nodup := by
  induction calls generalizing s with
  | nil =>
    simp only [run, Option.some.injEq] at h
    subst h
    exact hnd
  | cons c rest ih =>
    simp only [run] at h
    cases hc : step mpm s c with
    | none => rw [hc] at h; simp at h
    | some s1 =>
      rw [hc] at h
      refine ih s1 ?_ h
      cases c with
      | openCall env =>
        simp only [step, Option.some.injEq] at hc
        rw [← hc, (serverOpen_registry mpm env s).1]
        exact hnd
      | accept sd p pumps =>
        cases mpm with
        | Thread =>
          simp only [step, incomingConnection] at hc
          obtain ⟨k, _, _, _, hs1⟩ := threadLoop_some sd p pumps s s1 hc
          rw [hs1, spawn_actionContexts, waited_actionContexts]
          exact (hnd.filter _).insert
        | Prefork =>
          simp only [step, incomingConnection, Option.some.injEq] at hc
          rw [← hc, spawn_actionContexts, close_actionContexts]
          exact hnd.insert
        | Invalid =>
          simp only [step, incomingConnection, Option.some.injEq] at hc
          rw [← hc]
          exact hnd
      | finished w =>
        simp only [step, Option.some.injEq] at hc
        rw [← hc, deleteActionContext_actionContexts]
        exact hnd.filter _

/-- C7: if `terminate()` returns, the registry is empty (`actionContextCount() == 0`) and
the listener is closed.  When workers were registered at the call, the drain loop has
exited in the first iteration after whose `processEvents()` the registry was empty, and in
no earlier one.  It does return when a pump delivers the completions of all registered
workers. -/
theorem terminate_drains (s s' : Server) (pumps : List (List Nat))
    (h : terminate s pumps = some s') :
    s'.actionContexts = [] ∧ actionContextCount s' = 0 ∧ isOpen s' = false
      ∧ (0 < actionContextCount s →
          ∃ k, 0 < k ∧ k ≤ pumps.length
            ∧ s' = pumped (stopAll (close s)) (pumps.take k)
            ∧ ∀ j, 0 < j → j < k →
                (pumped (stopAll (close s)) (pumps.take j)).actionContexts ≠ [])
      ∧ (terminate s [s.actionContexts]).isSome = true := by
  have hret : (terminate s [s.actionContexts]).isSome = true := by
    unfold terminate
    simp only
    split
    · exact drain_returns [s.actionContexts] (stopAll (close s)) 1 Nat.one_pos (by simp)
        (by simp [pumped])
    · rfl
  unfold terminate at h
  simp only at h
  split at h
  · rename_i hpos
    obtain ⟨k, h0, hk, hs', hnil, hbefore⟩ := drain_some pumps (stopAll (close s)) s' h
    refine ⟨hnil, by simp [actionContextCount, hnil], ?_, ?_, hret⟩
    · rw [hs']
      simp [isOpen, pumped_listening]
    · intro _
      exact ⟨k, h0, hk, hs', hbefore⟩
  · rename_i hzero
    have hs' : s' = close s := (Option.some.inj h).symm
    have hnil : s.actionContexts = [] := by
      apply List.eq_nil_of_length_eq_zero
      simp only [actionContextCount, close_actionContexts] at hzero
      omega
    subst hs'
    refine ⟨by simpa using hnil, by simp [actionContextCount, hnil], rfl, ?_, hret⟩
    intro hpos
    simp [actionContextCount, hnil] at hpos

/-- C7, instance: two registered workers, whose completions arrive in the first and in the
third iteration of the drain loop. -/
theorem terminate_drains_witness :
    terminate (spawn (spawn (initial 2) 5 100) 6 101) [[100], [], [101]]
        = some (pumped (stopAll (close (spawn (spawn (initial 2) 5 100) 6 101)))
            [[100], [], [101]])
      ∧ (pumped (stopAll (close (spawn (spawn (initial 2) 5 100) 6 101)))
            [[100], [], [101]]).actionContexts = []
      ∧ isOpen (pumped (stopAll (close (spawn (spawn (initial 2) 5 100) 6 101)))
            [[100], [], [101]]) = false :=
  ⟨rfl,
   (terminate_drains (spawn (spawn (initial 2) 5 100) 6 101) _ [[100], [], [101]] rfl).1,
   (terminate_drains (spawn (spawn (initial 2) 5 100) 6 101) _ [[100], [], [101]] rfl).2.2.1⟩

/-- C8: `terminate()` first calls `close()`, then `stop()` on the registered workers: the
calls made up to the drain loop are the earlier log, `close`, and one `stop` for each
registered worker and for no other; the drain loop adds only `processEvents` calls and
completions.  With an empty registry `terminate()` returns whatever the pending events,
having made the `close` call only, and the registry is still empty. -/
theorem terminate_stops (s : Server) (pumps : List (List Nat))
    (hnd : s.actionContexts.Nodup) :
    (stopAll (close s)).log = s.log ++ Event.close :: s.actionContexts.map Event.stop
      ∧ isOpen (close s) = false
      ∧ (∀ w, (s.actionContexts.map Event.stop).count (Event.stop w)
          = if w ∈ s.actionContexts then 1 else 0)
      ∧ (0 < actionContextCount s → terminate s pumps = drain (stopAll (close s)) pumps)
      ∧ (∀ s', terminate s pumps = some s' →
          ∃ tail, s'.log = s.log ++ Event.close :: s.actionContexts.map Event.stop ++ tail
            ∧ (∀ e ∈ tail, e = Event.processEvents ∨ ∃ w, e = Event.deleteLater w)
            ∧ stopped s'.log = stopped s.log ++ s.actionContexts)
      ∧ (s.actionContexts = [] →
          terminate s pumps = some (close s)
            ∧ (close s).log = s.log ++ [Event.close]
            ∧ (close s).actionContexts = []) := by
  have hlog : (stopAll (close s)).log
      = s.log ++ Event.close :: s.actionContexts.map Event.stop := by
    simp
  have hstop : ∀ tail : List Event,
      (∀ e ∈ tail, e = Event.processEvents ∨ ∃ w, e = Event.deleteLater w) →
      stopped (s.log ++ Event.close :: s.actionContexts.map Event.stop ++ tail)
        = stopped s.log ++ s.actionContexts := by
    intro tail hev
    have ht : stopped tail = [] := by
      unfold stopped
      rw [List.filterMap_eq_nil_iff]
      intro e he
      rcases hev e he with h | ⟨w, h⟩ <;> subst h <;> rfl
    have hc : stopped (Event.close :: s.actionContexts.map Event.stop)
        = stopped (s.actionContexts.map Event.stop) := rfl
    rw [stopped_append, stopped_append, hc, stopped_map_stop, ht]
    simp
  refine ⟨hlog, rfl, ?_, ?_, ?_, ?_⟩
  · intro w
    rw [List.count_map_of_injective _ _ (fun a b hab => by injection hab)]
    exact List.count_eq_of_nodup hnd
  · intro hpos
    unfold terminate
    simp only
    rw [if_pos (by simpa [actionContextCount] using hpos)]
  · intro s' hs'
    unfold terminate at hs'
    simp only at hs'
    split at hs'
    · obtain ⟨k, _, _, hk, _, _⟩ := drain_some pumps (stopAll (close s)) s' hs'
      obtain ⟨tail, htail, hev⟩ := pumped_log_prefix (pumps.take k) (stopAll (close s))
      refine ⟨tail, ?_, hev, ?_⟩
      · rw [hk, htail, hlog]
      · rw [hk, htail, hlog]
        exact hstop tail hev
    · rename_i hzero
      have hnil : s.actionContexts = [] := by
        apply List.eq_nil_of_length_eq_zero
        simp only [actionContextCount, close_actionContexts] at hzero
        omega
      have h1 : s' = close s := (Option.some.inj hs').symm
      refine ⟨[], ?_, by simp, ?_⟩
      · rw [h1, hnil]; simp
      · have := hstop [] (by simp)
        rw [h1, close_log]
        simpa [hnil] using this
  · intro hnil
    refine ⟨?_, rfl, by simpa using hnil⟩
    unfold terminate
    simp [actionContextCount, hnil]

/-- C8, instance: with workers 101 and 100 registered, `terminate()` makes the calls
`close`, `stop` on 101 and `stop` on 100, and worker 100 is stopped exactly once. -/
theorem terminate_stops_witness :
    (spawn (spawn (initial 2) 5 100) 6 101).actionContexts = [101, 100]
      ∧ (stopAll (close (spawn (spawn (initial 2) 5 100) 6 101))).log
          = (spawn (spawn (initial 2) 5 100) 6 101).log
              ++ [Event.close, Event.stop 101, Event.stop 100]
      ∧ ((spawn (spawn (initial 2) 5 100) 6 101).actionContexts.map Event.stop).count
          (Event.stop 100) = 1 :=
  ⟨rfl,
   (terminate_stops (spawn (spawn (initial 2) 5 100) 6 101) [] (by decide)).1,
   (terminate_stops (spawn (spawn (initial 2) 5 100) 6 101) [] (by decide)).2.2.1 100⟩

/-! ## `close()` and the failure of `open()` to bind -/

/-- C9: `close()` is idempotent on the state of the server (the second call is made, and
changes no data member); after `close()` `isOpen()` is false; `close()` leaves the
registry, `libLoaded` and `maxServers` as they are. -/
theorem close_idempotent (s : Server) :
    observable (close (close s)) = observable (close s)
      ∧ isOpen (close s) = false
      ∧ (close s).actionContexts = s.actionContexts
      ∧ (close s).libLoaded = s.libLoaded
      ∧ (close s).maxServers = s.maxServers :=
  ⟨rfl, rfl, rfl, rfl, rfl⟩

theorem loadAttempts_append (l1 l2 : List Event) :
    loadAttempts (l1 ++ l2) = loadAttempts l1 ++ loadAttempts l2 := by
  simp [loadAttempts, List.filterMap_append]

theorem staticInitRuns_append (l1 l2 : List Event) :
    staticInitRuns (l1 ++ l2) = staticInitRuns l1 ++ staticInitRuns l2 := by
  simp [staticInitRuns, List.filterMap_append]

theorem acquireDescriptor_fails (env : OpenEnv) (s : Server) (hclosed : s.listening = false)
    (hfail : env.sock ≤ 0 ∨ env.setSocketDescriptorOk = false) :
    acquireDescriptor env s
      = (false, { s with log := s.log ++
          if 0 < env.sock then
            [Event.nativeListen env.sock, Event.setSocketDescriptor env.sock false,
              Event.tSystemError, Event.nativeClose env.sock]
          else [Event.nativeListen env.sock, Event.tSystemError,
              Event.nativeClose env.sock] }) := by
  unfold acquireDescriptor
  rw [hclosed]
  simp only [Bool.false_eq_true, if_false]
  by_cases hs : 0 < env.sock
  · have hd : env.setSocketDescriptorOk = false := by
      rcases hfail with h | h
      · omega
      · exact h
    simp [hs, hd, emit, hclosed]
  · simp [hs, emit, hclosed]

/-- C10: when the listener is not listening and the descriptor cannot be acquired
(`nativeListen` returns a value `≤ 0`, or `setSocketDescriptor` rejects it), `open()` returns
false; the listener is still not listening, `libLoaded`, the registry and `maxServers` are
unchanged; the only calls made are `nativeListen`, `setSocketDescriptor` (when the
descriptor is positive), the error report and `nativeClose`: no library load is attempted
and the static initializer is not run. -/
theorem open_bind_failure (mpm : MultiProcessingModule) (env : OpenEnv) (s : Server)
    (hclosed : s.listening = false)
    (hfail : env.sock ≤ 0 ∨ env.setSocketDescriptorOk = false) :
    (serverOpen mpm env s).1 = false
      ∧ observable (serverOpen mpm env s).2 = observable s
      ∧ isOpen (serverOpen mpm env s).2 = false
      ∧ (serverOpen mpm env s).2.libLoaded = s.libLoaded
      ∧ (serverOpen mpm env s).2.actionContexts = s.actionContexts
      ∧ (serverOpen mpm env s).2.log = s.log ++
          (if 0 < env.sock then
            [Event.nativeListen env.sock, Event.setSocketDescriptor env.sock false,
              Event.tSystemError, Event.nativeClose env.sock]
          else [Event.nativeListen env.sock, Event.tSystemError,
              Event.nativeClose env.sock])
      ∧ loadAttempts (serverOpen mpm env s).2.log = loadAttempts s.log
      ∧ staticInitRuns (serverOpen mpm env s).2.log = staticInitRuns s.log := by
  have ha := acquireDescriptor_fails env s hclosed hfail
  have hopen : serverOpen mpm env s = acquireDescriptor env s := by
    unfold serverOpen
    rw [ha]
  rw [hopen, ha]
  refine ⟨rfl, rfl, hclosed, rfl, rfl, rfl, ?_, ?_⟩
  · rw [loadAttempts_append]
    split <;> simp [loadAttempts]
  · rw [staticInitRuns_append]
    split <;> simp [staticInitRuns]

/-- C10, instance: `nativeListen` returns -1 on a fresh server. -/
theorem open_bind_failure_witness :
    (initial 1).listening = false
      ∧ (bindFails.sock ≤ 0 ∨ bindFails.setSocketDescriptorOk = false)
      ∧ (serverOpen MultiProcessingModule.Thread bindFails (initial 1)).1 = false
      ∧ observable (serverOpen MultiProcessingModule.Thread bindFails (initial 1)).2
          = observable (initial 1) :=
  ⟨rfl, Or.inl (by decide),
   (open_bind_failure MultiProcessingModule.Thread bindFails (initial 1) rfl
     (Or.inl (by decide))).1,
   (open_bind_failure MultiProcessingModule.Thread bindFails (initial 1) rfl
     (Or.inl (by decide))).2.1⟩

/-! ## The three outcomes of `open()` -/

theorem acquireDescriptor_ok_iff (env : OpenEnv) (s : Server) :
    (acquireDescriptor env s).1 = true
      ↔ (s.listening = true ∨ (0 < env.sock ∧ env.setSocketDescriptorOk = true)) := by
  unfold acquireDescriptor
  split
  · rename_i h; simp [h]
  · rename_i h
    split
    · rename_i hs
      split
      · rename_i hd; simp [h, hs, hd]
      · rename_i hd; simp [h, hd]
    · rename_i hs; simp [h, hs]

theorem acquireDescriptor_false_listening (env : OpenEnv) (s : Server)
    (h : (acquireDescriptor env s).1 = false) :
    s.listening = false ∧ (env.sock ≤ 0 ∨ env.setSocketDescriptorOk = false)
      ∧ (acquireDescriptor env s).2.listening = false := by
  have hiff := acquireDescriptor_ok_iff env s
  have hnot : ¬ (s.listening = true ∨ (0 < env.sock ∧ env.setSocketDescriptorOk = true)) := by
    intro hc
    rw [hiff.mpr hc] at h
    exact Bool.noConfusion h
  have hl : s.listening = false := by
    cases hls : s.listening
    · rfl
    · exact absurd (Or.inl hls) hnot
  have hf : env.sock ≤ 0 ∨ env.setSocketDescriptorOk = false := by
    by_cases hs : 0 < env.sock
    · right
      cases hd : env.setSocketDescriptorOk
      · rfl
      · exact absurd (Or.inr ⟨hs, hd⟩) hnot
    · left; omega
  refine ⟨hl, hf, ?_⟩
  rw [acquireDescriptor_fails env s hl hf]
  exact hl

theorem acquireDescriptor_projections (env : OpenEnv) (s : Server) :
    staticInitRuns (acquireDescriptor env s).2.log = staticInitRuns s.log
      ∧ loadAttempts (acquireDescriptor env s).2.log = loadAttempts s.log
      ∧ constructed (acquireDescriptor env s).2.log = constructed s.log
      ∧ started (acquireDescriptor env s).2.log = started s.log := by
  unfold acquireDescriptor
  split
  · simp
  · split
    · split <;>
        simp [staticInitRuns, loadAttempts, constructed, started, List.filterMap_append]
    · simp [staticInitRuns, loadAttempts, constructed, started, List.filterMap_append]

theorem loadEach_projections (l : List (String × Bool)) (s : Server) :
    staticInitRuns (loadEach s l).log = staticInitRuns s.log
      ∧ loadAttempts (loadEach s l).log = loadAttempts s.log ++ l
      ∧ constructed (loadEach s l).log = constructed s.log
      ∧ started (loadEach s l).log = started s.log
      ∧ (loadEach s l).libLoaded = (s.libLoaded || l.any (fun a => a.2)) := by
  induction l generalizing s with
  | nil => simp [loadEach]
  | cons a l ih =>
    obtain ⟨path, ok⟩ := a
    cases ok
    · have h := ih (emit (emit s (Event.libraryLoad path false)) Event.tSystemError)
      simp only [loadEach]
      refine ⟨h.1.trans ?_, h.2.1.trans ?_, h.2.2.1.trans ?_, h.2.2.2.1.trans ?_,
        h.2.2.2.2.trans ?_⟩ <;>
        simp [staticInitRuns, loadAttempts, constructed, started, List.filterMap_append]
    · have h := ih { emit s (Event.libraryLoad path true) with libLoaded := true }
      simp only [loadEach]
      refine ⟨h.1.trans ?_, h.2.1.trans ?_, h.2.2.1.trans ?_, h.2.2.2.1.trans ?_,
        h.2.2.2.2.trans ?_⟩ <;>
        simp [staticInitRuns, loadAttempts, constructed, started, List.filterMap_append]

theorem serverOpen_bind_fail (mpm : MultiProcessingModule) (env : OpenEnv) (s : Server)
    (h : (acquireDescriptor env s).1 = false) :
    serverOpen mpm env s = (false, (acquireDescriptor env s).2) := by
  unfold serverOpen
  rcases hacq : acquireDescriptor env s with ⟨b, s1⟩
  rw [hacq] at h
  simp only at h
  subst h
  rfl

theorem serverOpen_dir_missing (mpm : MultiProcessingModule) (env : OpenEnv) (s : Server)
    (h : (acquireDescriptor env s).1 = true) (hlib : s.libLoaded = false)
    (hdir : env.libPathExists = false) :
    serverOpen mpm env s = (false, emit (acquireDescriptor env s).2 Event.tSystemError) := by
  have hf := (acquireDescriptor_fields env s).2.2
  unfold serverOpen
  rcases hacq : acquireDescriptor env s with ⟨b, s1⟩
  rw [hacq] at h hf
  simp only at h hf
  subst h
  simp [loadLibraries, hf, hlib, hdir]

theorem serverOpen_success (mpm : MultiProcessingModule) (env : OpenEnv) (s : Server)
    (h : (acquireDescriptor env s).1 = true)
    (hlib : s.libLoaded = true ∨ env.libPathExists = true) :
    serverOpen mpm env s
      = (true, runStaticInitializer mpm env.hookExists
          (emit (emit (loadLibraries env (acquireDescriptor env s).2).2
            Event.setCurrentWebRoot) Event.instantiate)) := by
  have hf := (acquireDescriptor_fields env s).2.2
  unfold serverOpen
  rcases hacq : acquireDescriptor env s with ⟨b, s1⟩
  rw [hacq] at h hf
  simp only at h hf
  subst h
  have hld : (loadLibraries env s1).1 = true := by
    unfold loadLibraries
    rcases hlib with hl | hd
    · simp [hf, hl]
    · split
      · rfl
      · simp [hd]
  rcases hres : loadLibraries env s1 with ⟨c, s2⟩
  rw [hres] at hld
  simp only at hld
  subst hld
  simp only [hres]

theorem serverOpen_false_cases (mpm : MultiProcessingModule) (env : OpenEnv) (s : Server)
    (h : (serverOpen mpm env s).1 = false) :
    ((acquireDescriptor env s).1 = false
        ∧ serverOpen mpm env s = (false, (acquireDescriptor env s).2))
      ∨ ((acquireDescriptor env s).1 = true ∧ s.libLoaded = false
        ∧ env.libPathExists = false
        ∧ serverOpen mpm env s
            = (false, emit (acquireDescriptor env s).2 Event.tSystemError)) := by
  cases hacq : (acquireDescriptor env s).1
  · exact Or.inl ⟨rfl, serverOpen_bind_fail mpm env s hacq⟩
  · right
    cases hlib : s.libLoaded
    · cases hdir : env.libPathExists
      · exact ⟨rfl, rfl, rfl, serverOpen_dir_missing mpm env s hacq hlib hdir⟩
      · rw [serverOpen_success mpm env s hacq (Or.inr hdir)] at h
        exact Bool.noConfusion h
    · rw [serverOpen_success mpm env s hacq (Or.inl hlib)] at h
      exact Bool.noConfusion h

theorem serverOpen_listening_iff (mpm : MultiProcessingModule) (env : OpenEnv) (s : Server) :
    (serverOpen mpm env s).2.listening = true
      ↔ (s.listening = true ∨ (0 < env.sock ∧ env.setSocketDescriptorOk = true)) := by
  rw [← acquireDescriptor_ok_iff]
  cases hres : (serverOpen mpm env s).1
  · rcases serverOpen_false_cases mpm env s hres with ⟨hacq, heq⟩ | ⟨hacq, _, _, heq⟩
    · rw [heq, hacq]
      simp [(acquireDescriptor_false_listening env s hacq).2.2]
    · rw [heq, hacq]
      simp [acquireDescriptor_true env s hacq]
  · have hacq : (acquireDescriptor env s).1 = true := by
      cases hc : (acquireDescriptor env s).1
      · rw [serverOpen_bind_fail mpm env s hc] at hres
        exact Bool.noConfusion hres
      · rfl
    rw [hacq]
    simp [serverOpen_true_listening mpm env s hres]

/-! ## The listener after a completion in the `Prefork` case -/

/-- C6, amended: in the `Prefork` case, when `deleteActionContext` runs for the admitted
worker, the worker leaves the registry and the listener is left as it is: `isOpen()` is
still false, and it stays false under every further sequence of gate calls
(`incomingConnection`, `deleteActionContext`).  After a later `open()`, `isOpen()` is true
exactly when that call acquires the descriptor (`nativeListen` returns a positive
descriptor and `setSocketDescriptor` accepts it), whether the call then returns true or,
the library directory missing, false; in particular it is true after an `open()` that
returns true. -/
theorem prefork_completion_listener (s : Server) (sd : Int) (p : Nat)
    (pumps : List (List Nat)) (env : OpenEnv) :
    incomingConnection MultiProcessingModule.Prefork s sd p pumps
        = some (spawn (close s) sd p)
      ∧ p ∈ (spawn (close s) sd p).actionContexts
      ∧ p ∉ (deleteActionContext (spawn (close s) sd p) p).actionContexts
      ∧ isOpen (deleteActionContext (spawn (close s) sd p) p) = false
      ∧ (∀ calls : List Step, calls.all isGateCall = true →
          ∃ t, run MultiProcessingModule.Prefork
                (deleteActionContext (spawn (close s) sd p) p) calls = some t
            ∧ isOpen t = false
            ∧ (isOpen (serverOpen MultiProcessingModule.Prefork env t).2 = true
                ↔ (0 < env.sock ∧ env.setSocketDescriptorOk = true))
            ∧ ((serverOpen MultiProcessingModule.Prefork env t).1 = true →
                isOpen (serverOpen MultiProcessingModule.Prefork env t).2 = true))
      ∧ (isOpen (serverOpen MultiProcessingModule.Prefork env
            (deleteActionContext (spawn (close s) sd p) p)).2 = true
          ↔ (0 < env.sock ∧ env.setSocketDescriptorOk = true))
      ∧ ((serverOpen MultiProcessingModule.Prefork env
            (deleteActionContext (spawn (close s) sd p) p)).1 = true →
          isOpen (serverOpen MultiProcessingModule.Prefork env
            (deleteActionContext (spawn (close s) sd p) p)).2 = true) := by
  have hclosed : ∀ t : Server, t.listening = false →
      (isOpen (serverOpen MultiProcessingModule.Prefork env t).2 = true
        ↔ (0 < env.sock ∧ env.setSocketDescriptorOk = true)) := by
    intro t ht
    unfold isOpen
    rw [serverOpen_listening_iff, ht]
    simp
  refine ⟨rfl, by simp, by simp, rfl, ?_, hclosed _ rfl, ?_⟩
  · intro calls hgate
    obtain ⟨t, ht, hl⟩ :=
      run_prefork_gate_closed calls (deleteActionContext (spawn (close s) sd p) p) rfl hgate
    exact ⟨t, ht, hl, hclosed t hl, fun h => serverOpen_true_listening _ _ _ h⟩
  · intro h
    exact serverOpen_true_listening _ _ _ h

/-- C6, amended, instance: after the completion the listener is closed; a later `open()`
that binds the port makes `isOpen()` true, also when it returns false because the library
directory is missing; a later `open()` that cannot bind leaves `isOpen()` false. -/
theorem prefork_completion_listener_witness :
    isOpen (deleteActionContext (spawn (close (initial 1)) 5 100) 100) = false
      ∧ isOpen (serverOpen MultiProcessingModule.Prefork bindOk
          (deleteActionContext (spawn (close (initial 1)) 5 100) 100)).2 = true
      ∧ (serverOpen MultiProcessingModule.Prefork libDirMissing
          (deleteActionContext (spawn (close (initial 1)) 5 100) 100)).1 = false
      ∧ isOpen (serverOpen MultiProcessingModule.Prefork libDirMissing
          (deleteActionContext (spawn (close (initial 1)) 5 100) 100)).2 = true
      ∧ ¬ (isOpen (serverOpen MultiProcessingModule.Prefork bindFails
          (deleteActionContext (spawn (close (initial 1)) 5 100) 100)).2 = true) :=
  ⟨(prefork_completion_listener (initial 1) 5 100 [] bindOk).2.2.2.1,
   (prefork_completion_listener (initial 1) 5 100 [] bindOk).2.2.2.2.2.2 rfl,
   rfl,
   (prefork_completion_listener (initial 1) 5 100 [] libDirMissing).2.2.2.2.2.1.mpr
     ⟨by decide, rfl⟩,
   fun h => absurd ((prefork_completion_listener (initial 1) 5 100 [] bindFails).2.2.2.2.2.1.mp
     h).1 (by decide)⟩

/-! ## Failure of `open()` -/

/-- C11, as stated, fails: on a fresh server, when the port binds and the library directory
does not exist, `open()` returns false and `isOpen()` is true. -/
theorem open_failure_still_listening :
    (serverOpen MultiProcessingModule.Thread libDirMissing (initial 1)).1 = false
      ∧ isOpen (serverOpen MultiProcessingModule.Thread libDirMissing (initial 1)).2 = true := by
  constructor <;> rfl

/-- C11, amended: `open()` never stops the listener.  When `open()` returns false, either
the listener was not listening and the descriptor could not be acquired, and `isOpen()` is
false afterwards; or the descriptor is available (already listening, or bound by this
call), no library has been loaded yet and the library directory does not exist, and
`isOpen()` is true afterwards. -/
theorem open_failure_listening (mpm : MultiProcessingModule) (env : OpenEnv) (s : Server)
    (h : (serverOpen mpm env s).1 = false) :
    (s.listening = false ∧ (env.sock ≤ 0 ∨ env.setSocketDescriptorOk = false)
        ∧ isOpen (serverOpen mpm env s).2 = false)
      ∨ ((s.listening = true ∨ (0 < env.sock ∧ env.setSocketDescriptorOk = true))
        ∧ s.libLoaded = false ∧ env.libPathExists = false
        ∧ isOpen (serverOpen mpm env s).2 = true) := by
  rcases serverOpen_false_cases mpm env s h with ⟨hacq, heq⟩ | ⟨hacq, hlib, hdir, heq⟩
  · left
    obtain ⟨h1, h2, h3⟩ := acquireDescriptor_false_listening env s hacq
    refine ⟨h1, h2, ?_⟩
    rw [heq]
    exact h3
  · right
    refine ⟨(acquireDescriptor_ok_iff env s).mp hacq, hlib, hdir, ?_⟩
    rw [heq]
    exact acquireDescriptor_true env s hacq

/-- C11, amended, instance: a bind failure on a fresh server is of the first kind. -/
theorem open_failure_listening_witness :
    (serverOpen MultiProcessingModule.Thread bindFails (initial 1)).1 = false
      ∧ (((initial 1).listening = false
            ∧ (bindFails.sock ≤ 0 ∨ bindFails.setSocketDescriptorOk = false)
            ∧ isOpen (serverOpen MultiProcessingModule.Thread bindFails (initial 1)).2 = false)
          ∨ (((initial 1).listening = true
              ∨ (0 < bindFails.sock ∧ bindFails.setSocketDescriptorOk = true))
            ∧ (initial 1).libLoaded = false ∧ bindFails.libPathExists = false
            ∧ isOpen (serverOpen MultiProcessingModule.Thread bindFails (initial 1)).2
                = true)) :=
  ⟨rfl, open_failure_listening MultiProcessingModule.Thread bindFails (initial 1) rfl⟩

/-- C12, as stated, fails: once a library has been loaded by an earlier `open()`, a later
`open()` called while the library directory does not exist skips the check, returns true
and runs the static initializer again. -/
theorem open_skips_directory_check_when_loaded :
    (serverOpen MultiProcessingModule.Thread bindOk (initial 1)).2.libLoaded = true
      ∧ libDirMissing.libPathExists = false
      ∧ (serverOpen MultiProcessingModule.Thread libDirMissing
          (serverOpen MultiProcessingModule.Thread bindOk (initial 1)).2).1 = true
      ∧ staticInitRuns (serverOpen MultiProcessingModule.Thread bindOk (initial 1)).2.log
          = [true]
      ∧ staticInitRuns (serverOpen MultiProcessingModule.Thread libDirMissing
          (serverOpen MultiProcessingModule.Thread bindOk (initial 1)).2).2.log
          = [true, true] := by
  refine ⟨rfl, rfl, rfl, rfl, rfl⟩

/-- C12, amended: whenever `open()` is called while no library has been loaded yet
(`libLoaded` is false) and the library directory does not exist, `open()` returns false,
the static initializer is not run, no library load is attempted, the registry is unchanged
(so an empty registry remains empty) and no worker is constructed or started. -/
theorem open_missing_directory (mpm : MultiProcessingModule) (env : OpenEnv) (s : Server)
    (hlib : s.libLoaded = false) (hdir : env.libPathExists = false) :
    (serverOpen mpm env s).1 = false
      ∧ staticInitRuns (serverOpen mpm env s).2.log = staticInitRuns s.log
      ∧ loadAttempts (serverOpen mpm env s).2.log = loadAttempts s.log
      ∧ (serverOpen mpm env s).2.actionContexts = s.actionContexts
      ∧ (s.actionContexts = [] → actionContextCount (serverOpen mpm env s).2 = 0)
      ∧ constructed (serverOpen mpm env s).2.log = constructed s.log
      ∧ started (serverOpen mpm env s).2.log = started s.log
      ∧ (serverOpen mpm env s).2.libLoaded = false := by
  have hp := acquireDescriptor_projections env s
  have hf := acquireDescriptor_fields env s
  have hreg := (serverOpen_registry mpm env s).1
  have hempty : s.actionContexts = [] → actionContextCount (serverOpen mpm env s).2 = 0 := by
    intro he
    simp [actionContextCount, hreg, he]
  cases hacq : (acquireDescriptor env s).1
  · rw [serverOpen_bind_fail mpm env s hacq] at hreg hempty ⊢
    exact ⟨rfl, hp.1, hp.2.1, hreg, hempty, hp.2.2.1, hp.2.2.2, hf.2.2.trans hlib⟩
  · rw [serverOpen_dir_missing mpm env s hacq hlib hdir] at hreg hempty ⊢
    refine ⟨rfl, ?_, ?_, hreg, hempty, ?_, ?_, hf.2.2.trans hlib⟩
    · change staticInitRuns (emit (acquireDescriptor env s).2 Event.tSystemError).log = _
      rw [emit_log, staticInitRuns_append, hp.1]
      exact List.append_nil _
    · change loadAttempts (emit (acquireDescriptor env s).2 Event.tSystemError).log = _
      rw [emit_log, loadAttempts_append, hp.2.1]
      exact List.append_nil _
    · change constructed (emit (acquireDescriptor env s).2 Event.tSystemError).log = _
      rw [emit_log, constructed_append, hp.2.2.1]
      exact List.append_nil _
    · change started (emit (acquireDescriptor env s).2 Event.tSystemError).log = _
      rw [emit_log, started_append, hp.2.2.2]
      exact List.append_nil _

/-- C12, amended, instance: a fresh server, the port binds, the directory is missing. -/
theorem open_missing_directory_witness :
    (initial 1).libLoaded = false ∧ libDirMissing.libPathExists = false
      ∧ (serverOpen MultiProcessingModule.Prefork libDirMissing (initial 1)).1 = false
      ∧ staticInitRuns (serverOpen MultiProcessingModule.Prefork libDirMissing
          (initial 1)).2.log = staticInitRuns (initial 1).log :=
  ⟨rfl, rfl,
   (open_missing_directory MultiProcessingModule.Prefork libDirMissing (initial 1) rfl rfl).1,
   (open_missing_directory MultiProcessingModule.Prefork libDirMissing (initial 1) rfl
     rfl).2.1⟩

/-! ## The static initializer -/

theorem loadLibraries_projections (env : OpenEnv) (s : Server) :
    staticInitRuns (loadLibraries env s).2.log = staticInitRuns s.log
      ∧ constructed (loadLibraries env s).2.log = constructed s.log
      ∧ started (loadLibraries env s).2.log = started s.log
      ∧ loadAttempts (loadLibraries env s).2.log
          = loadAttempts s.log
            ++ (if s.libLoaded = false ∧ env.libPathExists = true then env.libraries else []) := by
  unfold loadLibraries
  cases hl : s.libLoaded
  · cases hd : env.libPathExists
    · simp only [Bool.false_eq_true, if_false, emit_log, staticInitRuns_append,
        constructed_append, started_append, loadAttempts_append, and_false, and_self]
      exact ⟨List.append_nil _, List.append_nil _, List.append_nil _, by simp [loadAttempts]⟩
    · have h := loadEach_projections env.libraries (emit s Event.setCurrentLibPath)
      simp only [Bool.false_eq_true, if_false, if_true, and_self]
      refine ⟨h.1.trans ?_, h.2.2.1.trans ?_, h.2.2.2.1.trans ?_, h.2.1.trans ?_⟩
      · rw [emit_log, staticInitRuns_append]; exact List.append_nil _
      · rw [emit_log, constructed_append]; exact List.append_nil _
      · rw [emit_log, started_append]; exact List.append_nil _
      · rw [emit_log, loadAttempts_append]
        have : loadAttempts [Event.setCurrentLibPath] = [] := rfl
        rw [this, List.append_nil]
  · simp

theorem invokeStaticInitialize_projections (hook : Bool) (s : Server) :
    staticInitRuns (invokeStaticInitialize hook s).log = staticInitRuns s.log ++ [hook]
      ∧ constructed (invokeStaticInitialize hook s).log = constructed s.log
      ∧ started (invokeStaticInitialize hook s).log = started s.log
      ∧ loadAttempts (invokeStaticInitialize hook s).log = loadAttempts s.log := by
  cases hook <;>
    simp [invokeStaticInitialize, staticInitRuns, constructed, started, loadAttempts,
      List.filterMap_append]

theorem serverOpen_true_staticInitRuns (mpm : MultiProcessingModule) (env : OpenEnv)
    (s : Server) (h : (serverOpen mpm env s).1 = true) :
    staticInitRuns (serverOpen mpm env s).2.log
      = staticInitRuns s.log
        ++ (if mpm = MultiProcessingModule.Invalid then [] else [env.hookExists]) := by
  have hacq : (acquireDescriptor env s).1 = true := by
    cases hc : (acquireDescriptor env s).1
    · rw [serverOpen_bind_fail mpm env s hc] at h
      exact Bool.noConfusion h
    · rfl
  have hlib : s.libLoaded = true ∨ env.libPathExists = true := by
    cases hl : s.libLoaded
    · cases hd : env.libPathExists
      · rw [serverOpen_dir_missing mpm env s hacq hl hd] at h
        exact Bool.noConfusion h
      · exact Or.inr rfl
    · exact Or.inl rfl
  have hbase : staticInitRuns (emit (emit (loadLibraries env (acquireDescriptor env s).2).2
      Event.setCurrentWebRoot) Event.instantiate).log = staticInitRuns s.log := by
    rw [emit_log, emit_log, staticInitRuns_append, staticInitRuns_append,
      (loadLibraries_projections env _).1, (acquireDescriptor_projections env s).1]
    exact (List.append_nil _).trans (List.append_nil _)
  rw [serverOpen_success mpm env s hacq hlib]
  cases mpm
  · simp only [runStaticInitializer, (invokeStaticInitialize_projections _ _).1, hbase]
    simp
  · simp only [runStaticInitializer, (invokeStaticInitialize_projections _ _).1, hbase]
    simp
  · simp only [runStaticInitializer, hbase]
    simp

theorem serverOpen_false_staticInitRuns (mpm : MultiProcessingModule) (env : OpenEnv)
    (s : Server) (h : (serverOpen mpm env s).1 = false) :
    staticInitRuns (serverOpen mpm env s).2.log = staticInitRuns s.log := by
  rcases serverOpen_false_cases mpm env s h with ⟨_, heq⟩ | ⟨_, _, _, heq⟩
  · rw [heq]
    exact (acquireDescriptor_projections env s).1
  · rw [heq]
    change staticInitRuns (emit (acquireDescriptor env s).2 Event.tSystemError).log = _
    rw [emit_log, staticInitRuns_append, (acquireDescriptor_projections env s).1]
    exact List.append_nil _

theorem incomingConnection_staticInitRuns (mpm : MultiProcessingModule) (s t : Server)
    (sd : Int) (p : Nat) (pumps : List (List Nat))
    (h : incomingConnection mpm s sd p pumps = some t) :
    staticInitRuns t.log = staticInitRuns s.log := by
  have hspawn : ∀ u : Server, staticInitRuns (spawn u sd p).log = staticInitRuns u.log := by
    intro u
    rw [spawn_log, staticInitRuns_append]
    exact List.append_nil _
  cases mpm with
  | Thread =>
    simp only [incomingConnection] at h
    obtain ⟨k, _, _, _, ht⟩ := threadLoop_some sd p pumps s t h
    obtain ⟨tail, htail, hev⟩ := waited_log_prefix (pumps.take k) s
    have htl : staticInitRuns tail = [] := by
      unfold staticInitRuns
      rw [List.filterMap_eq_nil_iff]
      intro e he
      rcases hev e he with h1 | h1 | ⟨w, h1⟩ <;> subst h1 <;> rfl
    rw [ht, hspawn, htail, staticInitRuns_append, htl, List.append_nil]
  | Prefork =>
    simp only [incomingConnection, Option.some.injEq] at h
    rw [← h, hspawn, close_log, staticInitRuns_append]
    exact List.append_nil _
  | Invalid =>
    simp only [incomingConnection, Option.some.injEq] at h
    rw [h]

theorem run_staticInitRuns (mpm : MultiProcessingModule)
    (hmpm : mpm ≠ MultiProcessingModule.Invalid) (calls : List Step) (s s' : Server)
    (h : run mpm s calls = some s') :
    (staticInitRuns s'.log).length
      = (staticInitRuns s.log).length + successfulOpens mpm s calls := by
  induction calls generalizing s with
  | nil =>
    simp only [run, Option.some.injEq] at h
    subst h
    simp [successfulOpens]
  | cons c rest ih =>
    simp only [run] at h
    cases hc : step mpm s c with
    | none => rw [hc] at h; simp at h
    | some s1 =>
      rw [hc] at h
      have hrest := ih s1 h
      simp only [successfulOpens, hc]
      rw [hrest]
      cases c with
      | openCall env =>
        simp only [step, Option.some.injEq] at hc
        cases hres : (serverOpen mpm env s).1
        · have h1 := serverOpen_false_staticInitRuns mpm env s hres
          rw [hc] at h1
          rw [h1]
          simp [hres]
        · have h1 := serverOpen_true_staticInitRuns mpm env s hres
          rw [hc, if_neg hmpm] at h1
          rw [h1]
          simp only [List.length_append, List.length_singleton, hres, if_true]
          omega
      | accept sd p pumps =>
        simp only [step] at hc
        rw [incomingConnection_staticInitRuns mpm s s1 sd p pumps hc]
        simp
      | finished w =>
        simp only [step, Option.some.injEq] at hc
        rw [← hc, deleteActionContext_log, staticInitRuns_append]
        have : staticInitRuns [Event.deleteLater w] = [] := rfl
        rw [this]
        simp

/-- C13, as stated, fails: in the `Thread` configuration, after a successful `open()`, one
admitted connection and a second `open()`, the static initializer has run twice. -/
theorem static_init_runs_again_on_reopen :
    (run MultiProcessingModule.Thread (initial 1)
        [Step.openCall bindOk, Step.accept 5 100 [], Step.openCall bindOk]).map
          (fun s => staticInitRuns s.log)
      = some [true, true] := by
  rfl

/-- C13, amended: in the `Thread` and in the `Prefork` configuration the static
initializer is run exactly once by every `open()` call that returns true, with the
dispatch succeeding exactly when the hook exists; it is not run by an `open()` that returns
false nor by `incomingConnection`.  In every run of `open()`, connection and completion
calls the number of runs of the static initializer is the number of `open()` calls that
returned true: exactly one when `open()` succeeded once, one more for each repeated
successful `open()`. -/
theorem static_init_once_per_open (mpm : MultiProcessingModule)
    (hmpm : mpm = MultiProcessingModule.Thread ∨ mpm = MultiProcessingModule.Prefork)
    (M : Int) (calls : List Step) (s' : Server)
    (h : run mpm (initial M) calls = some s') :
    (staticInitRuns s'.log).length = successfulOpens mpm (initial M) calls
      ∧ (∀ env s, (serverOpen mpm env s).1 = true →
          staticInitRuns (serverOpen mpm env s).2.log
            = staticInitRuns s.log ++ [env.hookExists])
      ∧ (∀ env s, (serverOpen mpm env s).1 = false →
          staticInitRuns (serverOpen mpm env s).2.log = staticInitRuns s.log)
      ∧ (∀ s sd p pumps t, incomingConnection mpm s sd p pumps = some t →
          staticInitRuns t.log = staticInitRuns s.log) := by
  have hne : mpm ≠ MultiProcessingModule.Invalid := by
    rcases hmpm with h1 | h1 <;> rw [h1] <;> decide
  refine ⟨?_, ?_, ?_, ?_⟩
  · have := run_staticInitRuns mpm hne calls (initial M) s' h
    simpa [initial, staticInitRuns] using this
  · intro env s hs
    rw [serverOpen_true_staticInitRuns mpm env s hs, if_neg hne]
  · intro env s hs
    exact serverOpen_false_staticInitRuns mpm env s hs
  · intro s sd p pumps t ht
    exact incomingConnection_staticInitRuns mpm s t sd p pumps ht

/-- C13, amended, instance: one successful `open()` followed by two admitted connections
in the `Thread` configuration: one run of the static initializer. -/
theorem static_init_once_per_open_witness :
    run MultiProcessingModule.Thread (initial 1)
        [Step.openCall bindOk, Step.accept 5 100 [], Step.accept 6 101 [[100]]]
      = some (spawn (waitIteration (spawn
          (serverOpen MultiProcessingModule.Thread bindOk (initial 1)).2 5 100) [100]) 6 101)
    ∧ (staticInitRuns (spawn (waitIteration (spawn
          (serverOpen MultiProcessingModule.Thread bindOk (initial 1)).2 5 100) [100])
            6 101).log).length
        = successfulOpens MultiProcessingModule.Thread (initial 1)
            [Step.openCall bindOk, Step.accept 5 100 [], Step.accept 6 101 [[100]]]
    ∧ successfulOpens MultiProcessingModule.Thread (initial 1)
        [Step.openCall bindOk, Step.accept 5 100 [], Step.accept 6 101 [[100]]] = 1 :=
  ⟨rfl,
   (static_init_once_per_open MultiProcessingModule.Thread (Or.inl rfl) 1
     [Step.openCall bindOk, Step.accept 5 100 [], Step.accept 6 101 [[100]]] _ rfl).1,
   rfl⟩

/-! ## Success of `open()` -/

/-- C14: if the listening descriptor is available (already listening, or the bind
succeeds) and the library directory exists, `open()` returns true and the server is
listening, whatever the outcome of the library loads and whether or not the hook exists.
When no library was loaded before, every listed library is attempted, in order, each with
its own outcome.  A missing hook produces the failed dispatch and a warning as the last
two calls. -/
theorem open_succeeds (mpm : MultiProcessingModule) (env : OpenEnv) (s : Server)
    (havail : s.listening = true ∨ (0 < env.sock ∧ env.setSocketDescriptorOk = true))
    (hdir : env.libPathExists = true) :
    (serverOpen mpm env s).1 = true
      ∧ isOpen (serverOpen mpm env s).2 = true
      ∧ loadAttempts (serverOpen mpm env s).2.log
          = loadAttempts s.log ++ (if s.libLoaded = false then env.libraries else [])
      ∧ (mpm ≠ MultiProcessingModule.Invalid →
          staticInitRuns (serverOpen mpm env s).2.log
            = staticInitRuns s.log ++ [env.hookExists])
      ∧ (mpm ≠ MultiProcessingModule.Invalid → env.hookExists = false →
          ∃ before, (serverOpen mpm env s).2.log
            = before ++ [Event.dispatchStaticInit false, Event.tSystemWarn]) := by
  have hacq := (acquireDescriptor_ok_iff env s).mpr havail
  have hsucc := serverOpen_success mpm env s hacq (Or.inr hdir)
  have htrue : (serverOpen mpm env s).1 = true := by rw [hsucc]
  refine ⟨htrue, serverOpen_true_listening mpm env s htrue, ?_, ?_, ?_⟩
  · have hl := (loadLibraries_projections env (acquireDescriptor env s).2).2.2.2
    rw [(acquireDescriptor_fields env s).2.2, (acquireDescriptor_projections env s).2.1] at hl
    have hbase : loadAttempts (emit (emit (loadLibraries env (acquireDescriptor env s).2).2
        Event.setCurrentWebRoot) Event.instantiate).log
        = loadAttempts s.log ++ (if s.libLoaded = false then env.libraries else []) := by
      rw [emit_log, emit_log, loadAttempts_append, loadAttempts_append, hl]
      have h1 : loadAttempts [Event.setCurrentWebRoot] = [] := rfl
      have h2 : loadAttempts [Event.instantiate] = [] := rfl
      rw [h1, h2]
      simp [hdir]
    rw [hsucc]
    cases mpm
    · simp only [runStaticInitializer, (invokeStaticInitialize_projections _ _).2.2.2, hbase]
    · simp only [runStaticInitializer, (invokeStaticInitialize_projections _ _).2.2.2, hbase]
    · simp only [runStaticInitializer, hbase]
  · intro hne
    rw [serverOpen_true_staticInitRuns mpm env s htrue, if_neg hne]
  · intro hne hhook
    rw [hsucc, hhook]
    cases mpm
    · exact ⟨(loadLibraries env (acquireDescriptor env s).2).2.log
        ++ [Event.setCurrentWebRoot, Event.instantiate],
        by simp [runStaticInitializer, invokeStaticInitialize]⟩
    · exact ⟨(loadLibraries env (acquireDescriptor env s).2).2.log
        ++ [Event.setCurrentWebRoot, Event.instantiate],
        by simp [runStaticInitializer, invokeStaticInitialize]⟩
    · exact absurd rfl hne

/-- C14, instance: the port binds, the one library in the directory fails to load, and
`open()` returns true. -/
theorem open_succeeds_witness :
    (loadFails.libPathExists = true)
      ∧ (serverOpen MultiProcessingModule.Thread loadFails (initial 1)).1 = true
      ∧ loadAttempts (serverOpen MultiProcessingModule.Thread loadFails (initial 1)).2.log
          = loadAttempts (initial 1).log
            ++ (if (initial 1).libLoaded = false then loadFails.libraries else []) :=
  ⟨rfl,
   (open_succeeds MultiProcessingModule.Thread loadFails (initial 1)
     (Or.inr ⟨by decide, rfl⟩) rfl).1,
   (open_succeeds MultiProcessingModule.Thread loadFails (initial 1)
     (Or.inr ⟨by decide, rfl⟩) rfl).2.2.1⟩

/-! ## The library-loading step -/

theorem libraryStep_append (l1 l2 : List Event) :
    libraryStep (l1 ++ l2) = libraryStep l1 ++ libraryStep l2 := by
  simp [libraryStep, List.filter_append]

theorem libraryStep_emit (s : Server) (e : Event) (h : libraryStep [e] = []) :
    libraryStep (emit s e).log = libraryStep s.log := by
  rw [emit_log, libraryStep_append, h, List.append_nil]

theorem acquireDescriptor_libraryStep (env : OpenEnv) (s : Server) :
    libraryStep (acquireDescriptor env s).2.log = libraryStep s.log := by
  unfold acquireDescriptor
  split
  · rfl
  · split
    · split <;> simp [libraryStep, List.filter_append]
    · simp [libraryStep, List.filter_append]

theorem loadEach_libraryStep (l : List (String × Bool)) (s : Server) :
    libraryStep (loadEach s l).log
      = libraryStep s.log ++ l.map (fun a => Event.libraryLoad a.1 a.2) := by
  induction l generalizing s with
  | nil => simp [loadEach]
  | cons a l ih =>
    obtain ⟨path, ok⟩ := a
    cases ok
    · simp only [loadEach]
      rw [ih]
      simp [libraryStep, List.filter_append]
    · simp only [loadEach]
      rw [ih]
      simp [libraryStep, List.filter_append]

theorem runStaticInitializer_libraryStep (mpm : MultiProcessingModule) (hook : Bool)
    (s : Server) : libraryStep (runStaticInitializer mpm hook s).log = libraryStep s.log := by
  cases mpm <;> cases hook <;>
    simp [runStaticInitializer, invokeStaticInitialize, libraryStep, List.filter_append]

theorem serverOpen_libLoaded_of_loaded (mpm : MultiProcessingModule) (env : OpenEnv)
    (s : Server) (hl : s.libLoaded = true) :
    (serverOpen mpm env s).2.libLoaded = true
      ∧ libraryStep (serverOpen mpm env s).2.log = libraryStep s.log := by
  have hf := (acquireDescriptor_fields env s).2.2
  cases hacq : (acquireDescriptor env s).1
  · rw [serverOpen_bind_fail mpm env s hacq]
    exact ⟨hf.trans hl, acquireDescriptor_libraryStep env s⟩
  · rw [serverOpen_success mpm env s hacq (Or.inl hl)]
    have hld : loadLibraries env (acquireDescriptor env s).2
        = (true, (acquireDescriptor env s).2) := by
      simp [loadLibraries, hf, hl]
    have hobs := observable_fields (runStaticInitializer_observable mpm env.hookExists
      (emit (emit (loadLibraries env (acquireDescriptor env s).2).2 Event.setCurrentWebRoot)
        Event.instantiate))
    refine ⟨?_, ?_⟩
    · rw [hobs.2.1, hld]
      exact hf.trans hl
    · rw [runStaticInitializer_libraryStep, libraryStep_emit _ Event.instantiate rfl,
        libraryStep_emit _ Event.setCurrentWebRoot rfl, hld]
      exact acquireDescriptor_libraryStep env s

theorem serverOpen_scan (mpm : MultiProcessingModule) (env : OpenEnv) (s : Server)
    (hl : s.libLoaded = false)
    (havail : s.listening = true ∨ (0 < env.sock ∧ env.setSocketDescriptorOk = true))
    (hdir : env.libPathExists = true) :
    libraryStep (serverOpen mpm env s).2.log
        = libraryStep s.log
          ++ Event.setCurrentLibPath :: env.libraries.map (fun a => Event.libraryLoad a.1 a.2)
      ∧ (serverOpen mpm env s).2.libLoaded = env.libraries.any (fun a => a.2) := by
  have hf := (acquireDescriptor_fields env s).2.2
  have hacq := (acquireDescriptor_ok_iff env s).mpr havail
  rw [serverOpen_success mpm env s hacq (Or.inr hdir)]
  have hld : loadLibraries env (acquireDescriptor env s).2
      = (true, loadEach (emit (acquireDescriptor env s).2 Event.setCurrentLibPath)
          env.libraries) := by
    simp [loadLibraries, hf, hl, hdir]
  have hobs := observable_fields (runStaticInitializer_observable mpm env.hookExists
    (emit (emit (loadLibraries env (acquireDescriptor env s).2).2 Event.setCurrentWebRoot)
      Event.instantiate))
  refine ⟨?_, ?_⟩
  · rw [runStaticInitializer_libraryStep, libraryStep_emit _ Event.instantiate rfl,
      libraryStep_emit _ Event.setCurrentWebRoot rfl, hld, loadEach_libraryStep, emit_log, libraryStep_append, acquireDescriptor_libraryStep]
    simp [libraryStep]
  · rw [hobs.2.1, hld]
    simp only [emit_libLoaded]
    rw [(loadEach_projections _ _).2.2.2.2]
    simp [hf, hl]

theorem waited_libLoaded (pumps : List (List Nat)) (s : Server) :
    (waited s pumps).libLoaded = s.libLoaded := by
  induction pumps generalizing s with
  | nil => rfl
  | cons a l ih =>
    have : waited s (a :: l) = waited (waitIteration s a) l := rfl
    rw [this, ih, waitIteration_libLoaded]

theorem incomingConnection_libraryStep (mpm : MultiProcessingModule) (s t : Server)
    (sd : Int) (p : Nat) (pumps : List (List Nat))
    (h : incomingConnection mpm s sd p pumps = some t) :
    libraryStep t.log = libraryStep s.log ∧ t.libLoaded = s.libLoaded := by
  have hspawn : ∀ u : Server, libraryStep (spawn u sd p).log = libraryStep u.log := by
    intro u
    rw [spawn_log, libraryStep_append]
    exact List.append_nil _
  cases mpm with
  | Thread =>
    simp only [incomingConnection] at h
    obtain ⟨k, _, _, _, ht⟩ := threadLoop_some sd p pumps s t h
    obtain ⟨tail, htail, hev⟩ := waited_log_prefix (pumps.take k) s
    have htl : libraryStep tail = [] := by
      unfold libraryStep
      rw [List.filter_eq_nil_iff]
      intro e he
      rcases hev e he with h1 | h1 | ⟨w, h1⟩ <;> subst h1 <;> simp
    have hlib : (waited s (pumps.take k)).libLoaded = s.libLoaded :=
      waited_libLoaded (pumps.take k) s
    rw [ht, hspawn, htail, libraryStep_append, htl, List.append_nil, spawn_libLoaded, hlib]
    exact ⟨rfl, rfl⟩
  | Prefork =>
    simp only [incomingConnection, Option.some.injEq] at h
    rw [← h, hspawn, close_log, libraryStep_append]
    exact ⟨List.append_nil _, rfl⟩
  | Invalid =>
    simp only [incomingConnection, Option.some.injEq] at h
    rw [h]
    exact ⟨rfl, rfl⟩

theorem run_libraryStep (mpm : MultiProcessingModule) (calls : List Step) (s s' : Server)
    (hl : s.libLoaded = true) (h : run mpm s calls = some s') :
    s'.libLoaded = true ∧ libraryStep s'.log = libraryStep s.log := by
  induction calls generalizing s with
  | nil =>
    simp only [run, Option.some.injEq] at h
    subst h
    exact ⟨hl, rfl⟩
  | cons c rest ih =>
    simp only [run] at h
    cases hc : step mpm s c with
    | none => rw [hc] at h; simp at h
    | some s1 =>
      rw [hc] at h
      have hstep : s1.libLoaded = true ∧ libraryStep s1.log = libraryStep s.log := by
        cases c with
        | openCall env =>
          simp only [step, Option.some.injEq] at hc
          rw [← hc]
          exact serverOpen_libLoaded_of_loaded mpm env s hl
        | accept sd p pumps =>
          simp only [step] at hc
          obtain ⟨h1, h2⟩ := incomingConnection_libraryStep mpm s s1 sd p pumps hc
          exact ⟨h2.trans hl, h1⟩
        | finished w =>
          simp only [step, Option.some.injEq] at hc
          rw [← hc]
          exact ⟨hl, libraryStep_emit _ (Event.deleteLater w) rfl⟩
      obtain ⟨h1, h2⟩ := ih s1 hstep.1 h
      exact ⟨h1, h2.trans hstep.2⟩

theorem serverOpen_libLoaded_iff (mpm : MultiProcessingModule) (env : OpenEnv) (s : Server)
    (hl : s.libLoaded = false) :
    (serverOpen mpm env s).2.libLoaded = true
      ↔ ((s.listening = true ∨ (0 < env.sock ∧ env.setSocketDescriptorOk = true))
          ∧ env.libPathExists = true ∧ ∃ path, (path, true) ∈ env.libraries) := by
  have hf := (acquireDescriptor_fields env s).2.2
  have hany : env.libraries.any (fun a => a.2) = true ↔ ∃ path, (path, true) ∈ env.libraries := by
    rw [List.any_eq_true]
    constructor
    · rintro ⟨⟨path, ok⟩, hmem, hok⟩
      simp only at hok
      subst hok
      exact ⟨path, hmem⟩
    · rintro ⟨path, hmem⟩
      exact ⟨(path, true), hmem, rfl⟩
  constructor
  · intro h
    cases hres : (serverOpen mpm env s).1
    · rcases serverOpen_false_cases mpm env s hres with ⟨_, heq⟩ | ⟨_, _, _, heq⟩
      · rw [heq] at h
        rw [hf.trans hl] at h
        exact Bool.noConfusion h
      · rw [heq] at h
        simp only [emit_libLoaded] at h
        rw [hf.trans hl] at h
        exact Bool.noConfusion h
    · have hacq : (acquireDescriptor env s).1 = true := by
        cases hc : (acquireDescriptor env s).1
        · rw [serverOpen_bind_fail mpm env s hc] at hres
          exact Bool.noConfusion hres
        · rfl
      have havail := (acquireDescriptor_ok_iff env s).mp hacq
      have hdir : env.libPathExists = true := by
        cases hd : env.libPathExists
        · rw [serverOpen_dir_missing mpm env s hacq hl hd] at hres
          exact Bool.noConfusion hres
        · rfl
      rw [(serverOpen_scan mpm env s hl havail hdir).2] at h
      exact ⟨havail, hdir, hany.mp h⟩
  · rintro ⟨havail, hdir, hex⟩
    rw [(serverOpen_scan mpm env s hl havail hdir).2]
    exact hany.mpr hex

/-- C15, as stated, fails: when the one library in the directory cannot be loaded, two
`open()` calls in a row both return true and both change into the library directory and
attempt the load. -/
theorem library_scan_repeated :
    libraryStep (serverOpen MultiProcessingModule.Thread loadFails (initial 1)).2.log
        = [Event.setCurrentLibPath, Event.libraryLoad "libcontroller.so" false]
      ∧ (serverOpen MultiProcessingModule.Thread loadFails
          (serverOpen MultiProcessingModule.Thread loadFails (initial 1)).2).1 = true
      ∧ libraryStep (serverOpen MultiProcessingModule.Thread loadFails
          (serverOpen MultiProcessingModule.Thread loadFails (initial 1)).2).2.log
        = [Event.setCurrentLibPath, Event.libraryLoad "libcontroller.so" false,
            Event.setCurrentLibPath, Event.libraryLoad "libcontroller.so" false] := by
  refine ⟨rfl, rfl, rfl⟩

/-- C15, amended: `libLoaded` becomes true in the `open()` call in which a library is
loaded successfully, and only there.  Over every sequence of calls after such an
`open()`, `libLoaded` stays true and no part of the library-loading step is performed
again: no later `open()` changes into the library directory or attempts a load.  While
`libLoaded` is false, every `open()` that gets past socket setup with an existing library
directory performs the whole step again. -/
theorem library_loading_until_success (mpm : MultiProcessingModule) (env : OpenEnv)
    (s s' : Server) (calls : List Step)
    (hloaded : (serverOpen mpm env s).2.libLoaded = true)
    (hrun : run mpm (serverOpen mpm env s).2 calls = some s') :
    s'.libLoaded = true
      ∧ libraryStep s'.log = libraryStep (serverOpen mpm env s).2.log
      ∧ (s.libLoaded = false → ∃ path, (path, true) ∈ env.libraries)
      ∧ (∀ (env2 : OpenEnv) (s2 : Server), s2.libLoaded = false →
          (s2.listening = true ∨ (0 < env2.sock ∧ env2.setSocketDescriptorOk = true)) →
          env2.libPathExists = true →
          libraryStep (serverOpen mpm env2 s2).2.log
              = libraryStep s2.log ++ Event.setCurrentLibPath
                  :: env2.libraries.map (fun a => Event.libraryLoad a.1 a.2)
            ∧ ((serverOpen mpm env2 s2).2.libLoaded = true
                ↔ ∃ path, (path, true) ∈ env2.libraries)) := by
  obtain ⟨h1, h2⟩ := run_libraryStep mpm calls (serverOpen mpm env s).2 s' hloaded hrun
  refine ⟨h1, h2, ?_, ?_⟩
  · intro hl
    exact ((serverOpen_libLoaded_iff mpm env s hl).mp hloaded).2.2
  · intro env2 s2 hl2 havail hdir
    refine ⟨(serverOpen_scan mpm env2 s2 hl2 havail hdir).1, ?_⟩
    rw [serverOpen_libLoaded_iff mpm env2 s2 hl2]
    constructor
    · intro h; exact h.2.2
    · intro h; exact ⟨havail, hdir, h⟩

/-- C15, amended, instance: the first `open()` loads a library; a connection and a second
`open()` follow, and the library step has been performed once. -/
theorem library_loading_until_success_witness :
    (serverOpen MultiProcessingModule.Thread bindOk (initial 1)).2.libLoaded = true
      ∧ run MultiProcessingModule.Thread
          (serverOpen MultiProcessingModule.Thread bindOk (initial 1)).2
          [Step.accept 5 100 [], Step.openCall loadFails]
        = some (serverOpen MultiProcessingModule.Thread loadFails
            (spawn (serverOpen MultiProcessingModule.Thread bindOk (initial 1)).2 5 100)).2
      ∧ libraryStep (serverOpen MultiProcessingModule.Thread loadFails
            (spawn (serverOpen MultiProcessingModule.Thread bindOk (initial 1)).2 5 100)).2.log
        = libraryStep (serverOpen MultiProcessingModule.Thread bindOk (initial 1)).2.log :=
  ⟨rfl, rfl,
   (library_loading_until_success MultiProcessingModule.Thread bindOk (initial 1) _
     [Step.accept 5 100 [], Step.openCall loadFails] rfl rfl).2.1⟩

/-! ## The registry as a finite set -/

theorem applyOps_cons (s : Server) (o : RegistryOp) (ops : List RegistryOp) :
    applyOps s (o :: ops) = applyOps (applyOp s o) ops := rfl

theorem applyOps_nodup (ops : List RegistryOp) (s : Server) (h : s.actionContexts.Nodup) :
    (applyOps s ops).actionContexts.Nodup := by
  induction ops generalizing s with
  | nil => exact h
  | cons o ops ih =>
    rw [applyOps_cons]
    apply ih
    cases o with
    | insert p => exact h.insert
    | remove p => exact h.filter _

theorem mem_applyOps (ops : List RegistryOp) (s : Server) (p : Nat) :
    p ∈ (applyOps s ops).actionContexts
      ↔ (pending ops p = true ∨ (p ∈ s.actionContexts ∧ RegistryOp.remove p ∉ ops)) := by
  induction ops generalizing s with
  | nil => simp [applyOps, pending]
  | cons o ops ih =>
    rw [applyOps_cons, ih]
    cases o with
    | insert q =>
      simp only [applyOp, insertPointer_actionContexts, List.mem_insert_iff, pending,
        Bool.or_eq_true, Bool.and_eq_true, decide_eq_true_eq, Bool.not_eq_true',
        decide_eq_false_iff_not, List.mem_cons, reduceCtorEq, false_or]
      constructor
      · rintro (h | ⟨h | h, hn⟩)
        · exact Or.inl (Or.inr h)
        · exact Or.inl (Or.inl ⟨h.symm, hn⟩)
        · exact Or.inr ⟨h, hn⟩
      · rintro ((⟨h, hn⟩ | h) | ⟨h, hn⟩)
        · exact Or.inr ⟨Or.inl h.symm, hn⟩
        · exact Or.inl h
        · exact Or.inr ⟨Or.inr h, hn⟩
    | remove q =>
      simp only [applyOp, deleteActionContext_actionContexts, List.mem_filter,
        decide_eq_true_eq, pending, List.mem_cons, RegistryOp.remove.injEq, not_or]
      constructor
      · rintro (h | ⟨⟨h, hne⟩, hn⟩)
        · exact Or.inl h
        · exact Or.inr ⟨h, hne, hn⟩
      · rintro (h | ⟨h, hne, hn⟩)
        · exact Or.inl h
        · exact Or.inr ⟨⟨h, hne⟩, hn⟩

theorem pending_inserted (ops : List RegistryOp) (p : Nat) (h : pending ops p = true) :
    p ∈ insertedIds ops := by
  induction ops with
  | nil => simp [pending] at h
  | cons o ops ih =>
    cases o with
    | insert q =>
      simp only [pending, Bool.or_eq_true, Bool.and_eq_true, decide_eq_true_eq] at h
      rcases h with ⟨h, _⟩ | h
      · simp [insertedIds, h]
      · have := ih h
        simp only [insertedIds, List.filterMap_cons] at this ⊢
        exact List.mem_cons_of_mem _ this
    | remove q =>
      simp only [pending] at h
      have := ih h
      simpa [insertedIds, List.filterMap_cons] using this

/-- C16: after any sequence of `insertPointer` and `deleteActionContext` steps on the empty
registry, no identity is registered twice, an identity is registered exactly when it has
been inserted and not removed since, and `actionContextCount()` is the number of distinct
such identities.  `deleteActionContext` for an identity that is not registered leaves the
registry unchanged; so does a second `deleteActionContext` for the same identity. -/
theorem registry_is_set (M : Int) (ops : List RegistryOp) :
    (applyOps (initial M) ops).actionContexts.Nodup
      ∧ (∀ p, p ∈ (applyOps (initial M) ops).actionContexts ↔ pending ops p = true)
      ∧ (applyOps (initial M) ops).actionContexts.toFinset = liveIds ops
      ∧ actionContextCount (applyOps (initial M) ops) = ((liveIds ops).card : Int)
      ∧ (∀ w, w ∉ (applyOps (initial M) ops).actionContexts →
          (deleteActionContext (applyOps (initial M) ops) w).actionContexts
            = (applyOps (initial M) ops).actionContexts)
      ∧ (∀ w, (deleteActionContext (deleteActionContext (applyOps (initial M) ops) w)
            w).actionContexts
          = (deleteActionContext (applyOps (initial M) ops) w).actionContexts) := by
  have hnd : (applyOps (initial M) ops).actionContexts.Nodup :=
    applyOps_nodup ops (initial M) List.nodup_nil
  have hmem : ∀ p, p ∈ (applyOps (initial M) ops).actionContexts ↔ pending ops p = true := by
    intro p
    rw [mem_applyOps]
    simp [initial]
  have hset : (applyOps (initial M) ops).actionContexts.toFinset = liveIds ops := by
    ext p
    rw [List.mem_toFinset, hmem, liveIds, Finset.mem_filter, List.mem_toFinset]
    exact ⟨fun h => ⟨pending_inserted ops p h, h⟩, fun h => h.2⟩
  refine ⟨hnd, hmem, hset, ?_, ?_, ?_⟩
  · rw [← hset, List.toFinset_card_of_nodup hnd]
    rfl
  · intro w hw
    rw [deleteActionContext_actionContexts, List.filter_eq_self]
    intro q hq
    simp only [decide_eq_true_eq]
    intro heq
    exact hw (heq ▸ hq)
  · intro w
    simp only [deleteActionContext_actionContexts, List.filter_filter]
    apply List.filter_congr
    intro q _
    simp

end TApplicationServer

namespace TSqlObject

theorem isUpper_iff_toNat (c : Char) : c.isUpper = true ↔ 65 ≤ c.toNat ∧ c.toNat ≤ 90 := by
  simp only [Char.isUpper, Bool.and_eq_true, decide_eq_true_eq, ge_iff_le, Char.toNat]
  rw [UInt32.le_def, UInt32.le_def]
  simp [UInt32.toNat]
  rfl

theorem toLower_not_isUpper (c : Char) : c.toLower.isUpper = false := by
  by_cases h : 65 ≤ c.toNat ∧ c.toNat ≤ 90
  · have hc : c = Char.ofNat c.toNat := (Char.ofNat_toNat c).symm
    obtain ⟨h1, h2⟩ := h
    generalize c.toNat = n at *
    subst hc
    interval_cases n <;> rfl
  · have hsame : c.toLower = c := by
      simp only [Char.toLower]
      rw [if_neg h]
    rw [hsame]
    cases hu : c.isUpper
    · rfl
    · exact absurd ((isUpper_iff_toNat c).mp hu) h

theorem appendName_eq (clsname : List Char) (i : Nat) (t : List Char) :
    appendName i clsname t
      = t ++ ((clsname.enumFrom i).map (fun ic =>
          if 0 < ic.1 ∧ ic.2.isUpper = true then ['_', ic.2.toLower]
          else [ic.2.toLower])).flatten := by
  induction clsname generalizing i t with
  | nil => simp [appendName]
  | cons c rest ih =>
    simp only [appendName, List.enumFrom_cons, List.map_cons, List.flatten_cons]
    rw [ih]
    by_cases h : 0 < i ∧ c.isUpper = true
    · simp [h]
    · simp [h]

theorem appendName_snakeCase (clsname : List Char) :
    appendName 0 clsname [] = snakeCase clsname := by
  rw [appendName_eq]
  simp [snakeCase, List.enum]

theorem snakeCase_not_isUpper (clsname : List Char) :
    ∀ ch ∈ snakeCase clsname, ch.isUpper = false := by
  intro ch hch
  simp only [snakeCase, List.mem_flatten, List.mem_map] at hch
  obtain ⟨l, ⟨ic, _, hl⟩, hmem⟩ := hch
  subst hl
  split at hmem
  · simp only [List.mem_cons, List.mem_singleton, List.not_mem_nil, or_false] at hmem
    rcases hmem with h | h
    · subst h; rfl
    · subst h; exact toLower_not_isUpper _
  · simp only [List.mem_singleton] at hmem
    subst hmem
    exact toLower_not_isUpper _

theorem removeObjectSuffix_append (pre : List Char) :
    removeObjectSuffix (pre ++ objectSuffix) = pre := by
  have hlen : (pre ++ objectSuffix).length - 7 = pre.length := by
    simp [objectSuffix]
  unfold removeObjectSuffix
  rw [hlen, List.drop_left, if_pos rfl, List.take_left]

theorem removeObjectSuffix_other (t : List Char)
    (h : ¬ ∃ pre, t = pre ++ objectSuffix) : removeObjectSuffix t = t := by
  unfold removeObjectSuffix
  split
  · rename_i hd
    exfalso
    apply h
    refine ⟨t.take (t.length - 7), ?_⟩
    rw [← hd, List.take_append_drop]
  · rfl

theorem removeObjectSuffix_subset (t : List Char) :
    ∀ ch ∈ removeObjectSuffix t, ch ∈ t := by
  intro ch hch
  unfold removeObjectSuffix at hch
  split at hch
  · exact List.mem_of_mem_take hch
  · exact hch

/-- C17, as stated, fails: for the class name `_object` the generated table name is empty,
so that the value cached after the first call is empty and the guard `tblName.isEmpty()`
holds again at the second call. -/
theorem tableName_empty_for_object :
    tableName "_object".toList [] = ([], [])
      ∧ List.isEmpty (tableName "_object".toList []).2 = true := by
  constructor <;> rfl

/-- C17, amended: starting from an empty `tblName`, `tableName()` returns the class name
with each character lower-cased and an underscore inserted before every upper-case
character at index > 0, with one trailing `_object` removed (`BlogEntryObject` gives
`blog_entry`), and stores it in `tblName`; the result contains no upper-case character; a
second call returns the same value; and a non-empty `tblName` is returned as it is,
whatever the class name, without being computed again. -/
theorem tableName_generated (clsname : List Char) :
    tableName clsname []
        = (removeObjectSuffix (snakeCase clsname), removeObjectSuffix (snakeCase clsname))
      ∧ (∀ pre, snakeCase clsname = pre ++ objectSuffix → (tableName clsname []).1 = pre)
      ∧ ((¬ ∃ pre, snakeCase clsname = pre ++ objectSuffix) →
          (tableName clsname []).1 = snakeCase clsname)
      ∧ (∀ ch ∈ (tableName clsname []).1, ch.isUpper = false)
      ∧ tableName clsname (tableName clsname []).2 = tableName clsname []
      ∧ (∀ (other cached : List Char), cached ≠ [] →
          tableName other cached = (cached, cached))
      ∧ tableName "BlogEntryObject".toList [] = ("blog_entry".toList, "blog_entry".toList) := by
  have hfirst : tableName clsname []
      = (removeObjectSuffix (snakeCase clsname), removeObjectSuffix (snakeCase clsname)) := by
    simp [tableName, appendName_snakeCase]
  have hcached : ∀ (other cached : List Char), cached ≠ [] →
      tableName other cached = (cached, cached) := by
    intro other cached hne
    cases cached with
    | nil => exact absurd rfl hne
    | cons a l => rfl
  refine ⟨hfirst, ?_, ?_, ?_, ?_, hcached, by rfl⟩
  · intro pre hpre
    rw [hfirst, hpre]
    exact removeObjectSuffix_append pre
  · intro hno
    rw [hfirst]
    exact removeObjectSuffix_other _ hno
  · intro ch hch
    rw [hfirst] at hch
    exact snakeCase_not_isUpper clsname ch (removeObjectSuffix_subset _ ch hch)
  · rw [hfirst]
    cases hres : removeObjectSuffix (snakeCase clsname) with
    | nil => rw [hfirst, hres]
    | cons a l => rfl

end TSqlObject

namespace HtmlParser

/-! ## What the parts of the pattern match -/

theorem mem_allClasses (c : CharClass) : c ∈ allClasses := by
  cases c <;> simp [allClasses]

theorem anyOf_rmatch (l : List CharClass) (x : List CharClass) :
    (anyOf l).rmatch x = true ↔ ∃ c ∈ l, x = [c] := by
  induction l with
  | nil => simp [anyOf]
  | cons a l ih =>
    have hunfold : anyOf (a :: l) = RegularExpression.char a + anyOf l := rfl
    rw [hunfold, RegularExpression.add_rmatch_iff, RegularExpression.char_rmatch_iff, ih]
    simp

theorem star_anyOf_rmatch (l : List CharClass) (x : List CharClass) :
    (RegularExpression.star (anyOf l)).rmatch x = true ↔ ∀ c ∈ x, c ∈ l := by
  rw [RegularExpression.star_rmatch_iff]
  constructor
  · rintro ⟨S, hx, hS⟩ c hc
    subst hx
    obtain ⟨t, ht, hct⟩ := List.mem_flatten.mp hc
    obtain ⟨d, hd, hteq⟩ := (anyOf_rmatch l t).mp (hS t ht).2
    subst hteq
    rw [List.mem_singleton] at hct
    subst hct
    exact hd
  · intro h
    refine ⟨x.map (fun c => [c]), ?_, ?_⟩
    · clear h
      induction x with
      | nil => rfl
      | cons a x ih => simp only [List.map_cons, List.flatten_cons, List.singleton_append, ← ih]
    · intro t ht
      obtain ⟨c, hc, hteq⟩ := List.mem_map.mp ht
      subst hteq
      exact ⟨List.cons_ne_nil _ _, (anyOf_rmatch l [c]).mpr ⟨c, h c hc, rfl⟩⟩

theorem star_char_rmatch (a : CharClass) (x : List CharClass) :
    (RegularExpression.star (RegularExpression.char a)).rmatch x = true ↔ ∀ c ∈ x, c = a := by
  rw [RegularExpression.star_rmatch_iff]
  constructor
  · rintro ⟨S, hx, hS⟩ c hc
    subst hx
    obtain ⟨t, ht, hct⟩ := List.mem_flatten.mp hc
    have hteq := (RegularExpression.char_rmatch_iff a t).mp (hS t ht).2
    subst hteq
    exact List.mem_singleton.mp hct
  · intro h
    refine ⟨x.map (fun c => [c]), ?_, ?_⟩
    · clear h
      induction x with
      | nil => rfl
      | cons a x ih => simp only [List.map_cons, List.flatten_cons, List.singleton_append, ← ih]
    · intro t ht
      obtain ⟨c, hc, hteq⟩ := List.mem_map.mp ht
      subst hteq
      refine ⟨List.cons_ne_nil _ _, (RegularExpression.char_rmatch_iff a [c]).mpr ?_⟩
      rw [h c hc]

theorem wordPlus_rmatch (x : List CharClass) :
    wordPlus.rmatch x = true ↔ (x ≠ [] ∧ ∀ c ∈ x, c = CharClass.word) := by
  unfold wordPlus
  rw [RegularExpression.mul_rmatch_iff]
  constructor
  · rintro ⟨t, u, hx, ht, hu⟩
    have hteq := (RegularExpression.char_rmatch_iff _ t).mp ht
    have hall := (star_char_rmatch _ u).mp hu
    subst hteq hx
    refine ⟨by simp, ?_⟩
    intro c hc
    rcases List.mem_append.mp hc with h | h
    · exact List.mem_singleton.mp h
    · exact hall c h
  · rintro ⟨hne, hall⟩
    cases x with
    | nil => exact absurd rfl hne
    | cons a x =>
      have ha : a = CharClass.word := hall a (List.mem_cons_self _ _)
      subst ha
      refine ⟨[CharClass.word], x, rfl, (RegularExpression.char_rmatch_iff _ _).mpr rfl, ?_⟩
      exact (star_char_rmatch _ x).mpr (fun c hc => hall c (List.mem_cons_of_mem _ hc))

theorem quoted_rmatch (q : CharClass) (x : List CharClass) :
    (quoted q).rmatch x = true ↔ ∃ y, x = q :: y ++ [q] ∧ q ∉ y := by
  have hmem : ∀ (y : List CharClass),
      (∀ c ∈ y, c ∈ allClasses.filter (fun c => decide (c ≠ q))) ↔ q ∉ y := by
    intro y
    constructor
    · intro h hq
      have := h q hq
      simp at this
    · intro h c hc
      rw [List.mem_filter]
      refine ⟨mem_allClasses c, ?_⟩
      simp only [decide_eq_true_eq]
      intro heq
      exact h (heq ▸ hc)
  unfold quoted
  rw [RegularExpression.mul_rmatch_iff]
  constructor
  · rintro ⟨t, u, hx, ht, hu⟩
    rw [RegularExpression.mul_rmatch_iff] at ht
    obtain ⟨a, y, ht', ha, hy⟩ := ht
    have haeq := (RegularExpression.char_rmatch_iff _ a).mp ha
    have hueq := (RegularExpression.char_rmatch_iff _ u).mp hu
    subst haeq hueq ht' hx
    exact ⟨y, rfl, (hmem y).mp ((star_anyOf_rmatch _ y).mp hy)⟩
  · rintro ⟨y, hx, hq⟩
    subst hx
    refine ⟨q :: y, [q], rfl, ?_, (RegularExpression.char_rmatch_iff _ _).mpr rfl⟩
    rw [RegularExpression.mul_rmatch_iff]
    exact ⟨[q], y, rfl, (RegularExpression.char_rmatch_iff _ _).mpr rfl,
      (star_anyOf_rmatch _ y).mpr ((hmem y).mpr hq)⟩

theorem itemPattern_rmatch (x : List CharClass) :
    itemPattern.rmatch x = true ↔ Item x := by
  unfold itemPattern
  rw [RegularExpression.add_rmatch_iff, RegularExpression.add_rmatch_iff, quoted_rmatch,
    quoted_rmatch, anyOf_rmatch]
  constructor
  · rintro ((⟨y, hx, hq⟩ | ⟨y, hx, hq⟩) | ⟨c, hc, hx⟩)
    · subst hx; exact Item.doubleQuoted y hq
    · subst hx; exact Item.singleQuoted y hq
    · subst hx; exact Item.plain c hc
  · intro h
    cases h with
    | doubleQuoted y hq => exact Or.inl (Or.inl ⟨y, rfl, hq⟩)
    | singleQuoted y hq => exact Or.inl (Or.inr ⟨y, rfl, hq⟩)
    | plain c hc => exact Or.inr ⟨c, hc, rfl⟩

theorem Item.ne_nil {t : List CharClass} (h : Item t) : t ≠ [] := by
  cases h <;> simp

theorem star_itemPattern_rmatch (x : List CharClass) :
    (RegularExpression.star itemPattern).rmatch x = true
      ↔ ∃ S : List (List CharClass), x = S.flatten ∧ ∀ t ∈ S, Item t := by
  rw [RegularExpression.star_rmatch_iff]
  constructor
  · rintro ⟨S, hx, hS⟩
    exact ⟨S, hx, fun t ht => (itemPattern_rmatch t).mp (hS t ht).2⟩
  · rintro ⟨S, hx, hS⟩
    exact ⟨S, hx, fun t ht => ⟨(hS t ht).ne_nil, (itemPattern_rmatch t).mpr (hS t ht)⟩⟩

theorem reg_rmatch (u : List CharClass) : reg.rmatch u = true ↔ TagText u := by
  unfold reg TagText
  constructor
  · intro h
    rw [RegularExpression.mul_rmatch_iff] at h
    obtain ⟨a, g, hu, ha, hg⟩ := h
    rw [RegularExpression.mul_rmatch_iff] at ha
    obtain ⟨b, body, ha', hb, hbody⟩ := ha
    rw [RegularExpression.mul_rmatch_iff] at hb
    obtain ⟨c, ws, hb', hc, hws⟩ := hb
    rw [RegularExpression.mul_rmatch_iff] at hc
    obtain ⟨l, nm, hc', hl, hnm⟩ := hc
    have hleq := (RegularExpression.char_rmatch_iff _ l).mp hl
    have hgeq := (RegularExpression.char_rmatch_iff _ g).mp hg
    obtain ⟨S, hS, hitems⟩ := (star_itemPattern_rmatch body).mp hbody
    have hspace := (star_char_rmatch _ ws).mp hws
    rw [RegularExpression.add_rmatch_iff] at hnm
    subst hleq hgeq hc' hb' ha' hu hS
    rcases hnm with hw | hsw
    · obtain ⟨hne, hall⟩ := (wordPlus_rmatch nm).mp hw
      exact ⟨[], nm, ws, S, by simp, Or.inl rfl, hne, hall, hspace, hitems⟩
    · rw [RegularExpression.mul_rmatch_iff] at hsw
      obtain ⟨sl, nm', hnm', hsl, hw⟩ := hsw
      have hsleq := (RegularExpression.char_rmatch_iff _ sl).mp hsl
      obtain ⟨hne, hall⟩ := (wordPlus_rmatch nm').mp hw
      subst hsleq hnm'
      exact ⟨[CharClass.slash], nm', ws, S, by simp, Or.inr rfl, hne, hall, hspace, hitems⟩
  · rintro ⟨sl, nm, ws, S, hu, hsl, hne, hall, hspace, hitems⟩
    subst hu
    rw [RegularExpression.mul_rmatch_iff]
    refine ⟨CharClass.lt :: sl ++ nm ++ ws ++ S.flatten, [CharClass.gt], rfl, ?_,
      (RegularExpression.char_rmatch_iff _ _).mpr rfl⟩
    rw [RegularExpression.mul_rmatch_iff]
    refine ⟨CharClass.lt :: sl ++ nm ++ ws, S.flatten, rfl, ?_,
      (star_itemPattern_rmatch _).mpr ⟨S, rfl, hitems⟩⟩
    rw [RegularExpression.mul_rmatch_iff]
    refine ⟨CharClass.lt :: sl ++ nm, ws, rfl, ?_, (star_char_rmatch _ ws).mpr hspace⟩
    rw [RegularExpression.mul_rmatch_iff]
    refine ⟨[CharClass.lt], sl ++ nm, by simp, (RegularExpression.char_rmatch_iff _ _).mpr rfl, ?_⟩
    rw [RegularExpression.add_rmatch_iff]
    rcases hsl with h | h
    · subst h
      exact Or.inl ((wordPlus_rmatch nm).mpr ⟨hne, hall⟩)
    · subst h
      right
      rw [RegularExpression.mul_rmatch_iff]
      exact ⟨[CharClass.slash], nm, rfl, (RegularExpression.char_rmatch_iff _ _).mpr rfl,
        (wordPlus_rmatch nm).mpr ⟨hne, hall⟩⟩

theorem contains_iff (P : RegularExpression CharClass) (w : List CharClass) :
    contains P w = true ↔ ∃ pre u post, w = pre ++ u ++ post ∧ P.rmatch u = true := by
  unfold contains
  simp only [List.any_eq_true, List.mem_tails, List.mem_inits]
  constructor
  · rintro ⟨t, ⟨pre, hpre⟩, u, ⟨post, hpost⟩, hu⟩
    exact ⟨pre, u, post, by rw [← hpre, ← hpost, List.append_assoc], hu⟩
  · rintro ⟨pre, u, post, hw, hu⟩
    exact ⟨u ++ post, ⟨pre, by rw [hw, List.append_assoc]⟩, u, ⟨post, rfl⟩, hu⟩

/-! ## The scan -/

theorem scan_plain (c : CharClass) (rest : List CharClass) (h : c ∈ plainClasses) :
    scan Mode.outside (c :: rest) = scan Mode.outside rest := by
  simp only [plainClasses, List.mem_cons, List.mem_singleton, List.not_mem_nil, or_false] at h
  rcases h with h | h | h | h <;> subst h <;> rfl

theorem scan_plains (x rest : List CharClass) (h : ∀ c ∈ x, c ∈ plainClasses) :
    scan Mode.outside (x ++ rest) = scan Mode.outside rest := by
  induction x with
  | nil => rfl
  | cons a x ih =>
    rw [List.cons_append, scan_plain a _ (h a (List.mem_cons_self _ _))]
    exact ih (fun c hc => h c (List.mem_cons_of_mem _ hc))

theorem scan_inDouble (x rest : List CharClass) (h : CharClass.dquote ∉ x) :
    scan Mode.inDouble (x ++ CharClass.dquote :: rest) = scan Mode.outside rest := by
  induction x with
  | nil => simp [scan]
  | cons a x ih =>
    have ha : a ≠ CharClass.dquote := fun heq => h (heq ▸ List.mem_cons_self _ _)
    rw [List.cons_append]
    simp only [scan, if_neg ha]
    exact ih (fun hm => h (List.mem_cons_of_mem _ hm))

theorem scan_inSingle (x rest : List CharClass) (h : CharClass.squote ∉ x) :
    scan Mode.inSingle (x ++ CharClass.squote :: rest) = scan Mode.outside rest := by
  induction x with
  | nil => simp [scan]
  | cons a x ih =>
    have ha : a ≠ CharClass.squote := fun heq => h (heq ▸ List.mem_cons_self _ _)
    rw [List.cons_append]
    simp only [scan, if_neg ha]
    exact ih (fun hm => h (List.mem_cons_of_mem _ hm))

theorem scan_item (t rest : List CharClass) (h : Item t) :
    scan Mode.outside (t ++ rest) = scan Mode.outside rest := by
  cases h with
  | doubleQuoted x hx =>
    have : (CharClass.dquote :: x ++ [CharClass.dquote]) ++ rest
        = CharClass.dquote :: (x ++ CharClass.dquote :: rest) := by simp
    rw [this]
    exact scan_inDouble x rest hx
  | singleQuoted x hx =>
    have : (CharClass.squote :: x ++ [CharClass.squote]) ++ rest
        = CharClass.squote :: (x ++ CharClass.squote :: rest) := by simp
    rw [this]
    exact scan_inSingle x rest hx
  | plain c hc => exact scan_plain c rest hc

theorem scan_items (S : List (List CharClass)) (rest : List CharClass)
    (h : ∀ t ∈ S, Item t) :
    scan Mode.outside (S.flatten ++ rest) = scan Mode.outside rest := by
  induction S with
  | nil => rfl
  | cons t S ih =>
    rw [List.flatten_cons, List.append_assoc, scan_item t _ (h t (List.mem_cons_self _ _))]
    exact ih (fun u hu => h u (List.mem_cons_of_mem _ hu))

theorem tagAt_of_tagText (u post : List CharClass) (h : TagText u) :
    tagAt (u ++ post) = true := by
  obtain ⟨sl, nm, ws, S, hu, hsl, hne, hall, hspace, hitems⟩ := h
  cases nm with
  | nil => exact absurd rfl hne
  | cons a nm =>
    have ha : a = CharClass.word := hall a (List.mem_cons_self _ _)
    subst ha
    have hscan : scan Mode.outside (nm ++ (ws ++ (S.flatten ++ CharClass.gt :: post)))
        = true := by
      rw [scan_plains nm _ (fun c hc => by
            rw [hall c (List.mem_cons_of_mem _ hc)]; simp [plainClasses]),
        scan_plains ws _ (fun c hc => by rw [hspace c hc]; simp [plainClasses]),
        scan_items S _ hitems]
      rfl
    rcases hsl with h | h
    · subst h hu
      have : (CharClass.lt :: [] ++ CharClass.word :: nm ++ ws ++ S.flatten ++ [CharClass.gt])
          ++ post
          = CharClass.lt :: CharClass.word
              :: (nm ++ (ws ++ (S.flatten ++ CharClass.gt :: post))) := by simp
      rw [this]
      exact hscan
    · subst h hu
      have : (CharClass.lt :: [CharClass.slash] ++ CharClass.word :: nm ++ ws ++ S.flatten
            ++ [CharClass.gt]) ++ post
          = CharClass.lt :: CharClass.slash :: CharClass.word
              :: (nm ++ (ws ++ (S.flatten ++ CharClass.gt :: post))) := by simp
      rw [this]
      exact hscan

theorem scan_inDouble_true (rest : List CharClass) (h : scan Mode.inDouble rest = true) :
    ∃ x rest', rest = x ++ CharClass.dquote :: rest' ∧ CharClass.dquote ∉ x
      ∧ scan Mode.outside rest' = true := by
  induction rest with
  | nil => simp [scan] at h
  | cons c r ih =>
    simp only [scan] at h
    split at h
    · rename_i hc
      subst hc
      exact ⟨[], r, rfl, by simp, h⟩
    · rename_i hc
      obtain ⟨x, r', hr, hx, hs⟩ := ih h
      refine ⟨c :: x, r', by rw [hr]; rfl, ?_, hs⟩
      intro hm
      rcases List.mem_cons.mp hm with h1 | h1
      · exact hc h1.symm
      · exact hx h1

theorem scan_inSingle_true (rest : List CharClass) (h : scan Mode.inSingle rest = true) :
    ∃ x rest', rest = x ++ CharClass.squote :: rest' ∧ CharClass.squote ∉ x
      ∧ scan Mode.outside rest' = true := by
  induction rest with
  | nil => simp [scan] at h
  | cons c r ih =>
    simp only [scan] at h
    split at h
    · rename_i hc
      subst hc
      exact ⟨[], r, rfl, by simp, h⟩
    · rename_i hc
      obtain ⟨x, r', hr, hx, hs⟩ := ih h
      refine ⟨c :: x, r', by rw [hr]; rfl, ?_, hs⟩
      intro hm
      rcases List.mem_cons.mp hm with h1 | h1
      · exact hc h1.symm
      · exact hx h1

theorem scan_outside_true (n : Nat) (rest : List CharClass) (hn : rest.length ≤ n)
    (h : scan Mode.outside rest = true) :
    ∃ (S : List (List CharClass)) (post : List CharClass),
      rest = S.flatten ++ CharClass.gt :: post ∧ ∀ t ∈ S, Item t := by
  induction n generalizing rest with
  | zero =>
    have : rest = [] := List.eq_nil_of_length_eq_zero (Nat.le_zero.mp hn)
    subst this
    simp [scan] at h
  | succ n ih =>
    cases rest with
    | nil => simp [scan] at h
    | cons c r =>
      have hr : r.length ≤ n := by simpa using hn
      have hplain : c ∈ plainClasses → scan Mode.outside r = true →
          ∃ (S : List (List CharClass)) (post : List CharClass),
            c :: r = S.flatten ++ CharClass.gt :: post ∧ ∀ t ∈ S, Item t := by
        intro hc hs
        obtain ⟨S, post, hS, hit⟩ := ih r hr hs
        refine ⟨[c] :: S, post, by rw [hS]; rfl, ?_⟩
        intro t ht
        rcases List.mem_cons.mp ht with h1 | h1
        · rw [h1]; exact Item.plain c hc
        · exact hit t h1
      cases c with
      | gt => exact ⟨[], r, rfl, by simp⟩
      | lt => simp [scan] at h
      | bracket => simp [scan] at h
      | slash => exact hplain (by simp [plainClasses]) h
      | word => exact hplain (by simp [plainClasses]) h
      | space => exact hplain (by simp [plainClasses]) h
      | other => exact hplain (by simp [plainClasses]) h
      | dquote =>
        obtain ⟨x, r', hxr, hx, hs⟩ := scan_inDouble_true r h
        have hlen : r'.length ≤ n := by
          have : r.length = x.length + (r'.length + 1) := by rw [hxr]; simp
          omega
        obtain ⟨S, post, hS, hit⟩ := ih r' hlen hs
        refine ⟨(CharClass.dquote :: x ++ [CharClass.dquote]) :: S, post, ?_, ?_⟩
        · rw [hxr, hS]; simp
        · intro t ht
          rcases List.mem_cons.mp ht with h1 | h1
          · rw [h1]; exact Item.doubleQuoted x hx
          · exact hit t h1
      | squote =>
        obtain ⟨x, r', hxr, hx, hs⟩ := scan_inSingle_true r h
        have hlen : r'.length ≤ n := by
          have : r.length = x.length + (r'.length + 1) := by rw [hxr]; simp
          omega
        obtain ⟨S, post, hS, hit⟩ := ih r' hlen hs
        refine ⟨(CharClass.squote :: x ++ [CharClass.squote]) :: S, post, ?_, ?_⟩
        · rw [hxr, hS]; simp
        · intro t ht
          rcases List.mem_cons.mp ht with h1 | h1
          · rw [h1]; exact Item.singleQuoted x hx
          · exact hit t h1

theorem tagText_of_tagAt (t : List CharClass) (h : tagAt t = true) :
    ∃ u post, t = u ++ post ∧ TagText u := by
  have hbuild : ∀ (sl rest : List CharClass), (sl = [] ∨ sl = [CharClass.slash]) →
      scan Mode.outside rest = true →
      ∃ u post, CharClass.lt :: sl ++ CharClass.word :: rest = u ++ post ∧ TagText u := by
    intro sl rest hsl hs
    obtain ⟨S, post, hS, hit⟩ := scan_outside_true rest.length rest (le_refl _) hs
    refine ⟨CharClass.lt :: sl ++ [CharClass.word] ++ [] ++ S.flatten ++ [CharClass.gt], post,
      by rw [hS]; simp, ?_⟩
    exact ⟨sl, [CharClass.word], [], S, rfl, hsl, by simp, by simp, by simp, hit⟩
  unfold tagAt at h
  split at h
  · rename_i rest
    exact hbuild [] rest (Or.inl rfl) h
  · rename_i rest
    exact hbuild [CharClass.slash] rest (Or.inr rfl) h
  · simp at h

theorem hasTag_iff (w : List CharClass) :
    hasTag w = true ↔ ∃ pre u post, w = pre ++ u ++ post ∧ TagText u := by
  unfold hasTag
  simp only [List.any_eq_true, List.mem_tails]
  constructor
  · rintro ⟨t, ⟨pre, hpre⟩, ht⟩
    obtain ⟨u, post, htu, hu⟩ := tagText_of_tagAt t ht
    exact ⟨pre, u, post, by rw [← hpre, htu, List.append_assoc], hu⟩
  · rintro ⟨pre, u, post, hw, hu⟩
    exact ⟨u ++ post, ⟨pre, by rw [hw, List.append_assoc]⟩, tagAt_of_tagText u post hu⟩

theorem contains_reg_iff (w : List CharClass) :
    contains reg w = true ↔ ∃ pre u post, w = pre ++ u ++ post ∧ TagText u := by
  rw [contains_iff]
  constructor
  · rintro ⟨pre, u, post, hw, hu⟩
    exact ⟨pre, u, post, hw, (reg_rmatch u).mp hu⟩
  · rintro ⟨pre, u, post, hw, hu⟩
    exact ⟨pre, u, post, hw, (reg_rmatch u).mpr hu⟩

theorem contains_reg_eq_hasTag (w : List CharClass) : contains reg w = hasTag w := by
  rw [Bool.eq_iff_iff, contains_reg_iff, hasTag_iff]

/-! ## Texts with a single `<` -/

theorem tagAt_ne_lt (c : CharClass) (t : List CharClass) (h : c ≠ CharClass.lt) :
    tagAt (c :: t) = false := by
  cases c <;> first | exact absurd rfl h | rfl

theorem hasTag_cons (c : CharClass) (w : List CharClass) :
    hasTag (c :: w) = (tagAt (c :: w) || hasTag w) := rfl

theorem hasTag_no_lt (w : List CharClass) (h : CharClass.lt ∉ w) : hasTag w = false := by
  induction w with
  | nil => rfl
  | cons c w ih =>
    rw [hasTag_cons, ih (fun hm => h (List.mem_cons_of_mem _ hm)),
      tagAt_ne_lt c w (fun heq => h (heq ▸ List.mem_cons_self _ _))]
    rfl

theorem hasTag_single (pre t : List CharClass) (hpre : CharClass.lt ∉ pre)
    (ht : CharClass.lt ∉ t) : hasTag (pre ++ CharClass.lt :: t) = tagAt (CharClass.lt :: t) := by
  induction pre with
  | nil =>
    rw [List.nil_append, hasTag_cons, hasTag_no_lt t ht, Bool.or_false]
  | cons c pre ih =>
    rw [List.cons_append, hasTag_cons,
      tagAt_ne_lt c _ (fun heq => hpre (heq ▸ List.mem_cons_self _ _)), Bool.false_or]
    exact ih (fun hm => hpre (List.mem_cons_of_mem _ hm))

theorem scan_inDouble_false (x : List CharClass) (h : CharClass.dquote ∉ x) :
    scan Mode.inDouble x = false := by
  induction x with
  | nil => rfl
  | cons a x ih =>
    have ha : a ≠ CharClass.dquote := fun heq => h (heq ▸ List.mem_cons_self _ _)
    simp only [scan, if_neg ha]
    exact ih (fun hm => h (List.mem_cons_of_mem _ hm))

theorem scan_inSingle_false (x : List CharClass) (h : CharClass.squote ∉ x) :
    scan Mode.inSingle x = false := by
  induction x with
  | nil => rfl
  | cons a x ih =>
    have ha : a ≠ CharClass.squote := fun heq => h (heq ▸ List.mem_cons_self _ _)
    simp only [scan, if_neg ha]
    exact ih (fun hm => h (List.mem_cons_of_mem _ hm))

theorem tagAt_name (sl body : List CharClass) (hsl : sl = [] ∨ sl = [CharClass.slash]) :
    tagAt (CharClass.lt :: sl ++ CharClass.word :: body) = scan Mode.outside body := by
  rcases hsl with h | h <;> subst h <;> rfl

theorem contains_single (pre sl body : List CharClass) (hpre : CharClass.lt ∉ pre)
    (hsl : sl = [] ∨ sl = [CharClass.slash]) (hbody : CharClass.lt ∉ body) :
    contains reg (pre ++ CharClass.lt :: sl ++ CharClass.word :: body)
      = scan Mode.outside body := by
  have hrest : CharClass.lt ∉ sl ++ CharClass.word :: body := by
    rcases hsl with h | h <;> subst h <;> simpa using hbody
  have hshape : pre ++ CharClass.lt :: sl ++ CharClass.word :: body
      = pre ++ CharClass.lt :: (sl ++ CharClass.word :: body) := by simp
  rw [contains_reg_eq_hasTag, hshape, hasTag_single pre _ hpre hrest]
  have := tagAt_name sl body hsl
  simpa using this

theorem classify_plain (c : Char) : classify c ∈ plainClasses ↔ c ∉ specialChars := by
  unfold classify
  split_ifs <;> simp_all [plainClasses, specialChars]

theorem tagcheck_rows : ∀ row ∈ tagcheck_data, tagcheck row.1 = row.2 := by
  have h : tagcheck_data.all (fun r => hasTag (r.1.toList.map classify) == r.2) = true := by
    decide
  intro row hrow
  have := (List.all_eq_true.mp h) row hrow
  simp only [beq_iff_eq] at this
  rw [tagcheck, contains_reg_eq_hasTag]
  exact this

/-- C18: the pattern of `tagcheck`, used with substring search, accepts a text exactly when
the text contains `<`, an optional `/`, one or more word characters, optional white space,
any sequence of complete double-quoted strings, complete single-quoted strings and single
characters other than `' " < > ( ) { } ;`, and then `>`.  Hence a tag with a name and
items of these kinds is accepted wherever it stands, whatever a quoted string holds; a
text whose only `<` is followed by a character that is neither a word character nor `/`
(such as `!`, `?`, `%`) is rejected; a text with a single `<` in which, after the tag
name and complete items, one of `( ) { } ;` stands unquoted or a quote is opened and not
closed is rejected; and every row of `tagcheck_data` has the expected result. -/
theorem tag_pattern_accepts :
    (∀ w, contains reg w = true ↔ ∃ pre u post, w = pre ++ u ++ post ∧ TagText u)
      ∧ (∀ c : Char, classify c ∈ plainClasses ↔ c ∉ specialChars)
      ∧ (∀ w, contains reg w = hasTag w)
      ∧ (∀ (pre sl name : List CharClass) (items : List (List CharClass))
          (post : List CharClass),
          (sl = [] ∨ sl = [CharClass.slash]) → name ≠ [] → (∀ c ∈ name, c = CharClass.word) →
          (∀ t ∈ items, Item t) →
          contains reg (pre ++ (CharClass.lt :: sl ++ name ++ [] ++ items.flatten
            ++ [CharClass.gt]) ++ post) = true)
      ∧ (classify '!' = CharClass.other ∧ classify '?' = CharClass.other
          ∧ classify '%' = CharClass.other)
      ∧ (∀ (pre post : List CharClass) (x : CharClass),
          CharClass.lt ∉ pre → CharClass.lt ∉ post → x ≠ CharClass.lt →
          x ≠ CharClass.word → x ≠ CharClass.slash →
          contains reg (pre ++ CharClass.lt :: x :: post) = false)
      ∧ (∀ (pre sl : List CharClass) (items : List (List CharClass))
          (rest : List CharClass),
          CharClass.lt ∉ pre → (sl = [] ∨ sl = [CharClass.slash]) → (∀ t ∈ items, Item t) →
          CharClass.lt ∉ items.flatten → CharClass.lt ∉ rest →
          contains reg (pre ++ CharClass.lt :: sl
            ++ CharClass.word :: (items.flatten ++ CharClass.bracket :: rest)) = false)
      ∧ (∀ (pre sl : List CharClass) (items : List (List CharClass)) (x : List CharClass),
          CharClass.lt ∉ pre → (sl = [] ∨ sl = [CharClass.slash]) → (∀ t ∈ items, Item t) →
          CharClass.lt ∉ items.flatten → CharClass.lt ∉ x → CharClass.dquote ∉ x →
          contains reg (pre ++ CharClass.lt :: sl
            ++ CharClass.word :: (items.flatten ++ CharClass.dquote :: x)) = false)
      ∧ (∀ (pre sl : List CharClass) (items : List (List CharClass)) (x : List CharClass),
          CharClass.lt ∉ pre → (sl = [] ∨ sl = [CharClass.slash]) → (∀ t ∈ items, Item t) →
          CharClass.lt ∉ items.flatten → CharClass.lt ∉ x → CharClass.squote ∉ x →
          contains reg (pre ++ CharClass.lt :: sl
            ++ CharClass.word :: (items.flatten ++ CharClass.squote :: x)) = false)
      ∧ (∀ row ∈ tagcheck_data, tagcheck row.1 = row.2) := by
  refine ⟨contains_reg_iff, classify_plain, contains_reg_eq_hasTag, ?_, ⟨rfl, rfl, rfl⟩, ?_, ?_,
    ?_, ?_, tagcheck_rows⟩
  · intro pre sl name items post hsl hne hall hit
    rw [contains_reg_iff]
    exact ⟨pre, _, post, rfl, sl, name, [], items, rfl, hsl, hne, hall, by simp, hit⟩
  · intro pre post x hpre hpost hx hw hs
    have hrest : CharClass.lt ∉ x :: post := by
      intro hm
      rcases List.mem_cons.mp hm with h | h
      · exact hx h.symm
      · exact hpost h
    rw [contains_reg_eq_hasTag, hasTag_single pre _ hpre hrest]
    cases x <;> first | exact absurd rfl hw | exact absurd rfl hs | rfl
  · intro pre sl items rest hpre hsl hit hitems hrest
    have hbody : CharClass.lt ∉ items.flatten ++ CharClass.bracket :: rest := by
      simp only [List.mem_append, List.mem_cons, reduceCtorEq, false_or, not_or]
      exact ⟨hitems, hrest⟩
    rw [contains_single pre sl _ hpre hsl hbody, scan_items items _ hit]
    rfl
  · intro pre sl items x hpre hsl hit hitems hx hq
    have hbody : CharClass.lt ∉ items.flatten ++ CharClass.dquote :: x := by
      simp only [List.mem_append, List.mem_cons, reduceCtorEq, false_or, not_or]
      exact ⟨hitems, hx⟩
    rw [contains_single pre sl _ hpre hsl hbody, scan_items items _ hit]
    exact scan_inDouble_false x hq
  · intro pre sl items x hpre hsl hit hitems hx hq
    have hbody : CharClass.lt ∉ items.flatten ++ CharClass.squote :: x := by
      simp only [List.mem_append, List.mem_cons, reduceCtorEq, false_or, not_or]
      exact ⟨hitems, hx⟩
    rw [contains_single pre sl _ hpre hsl hbody, scan_items items _ hit]
    exact scan_inSingle_false x hq

end HtmlParser
